import Mathlib

/-!
Shallow embedding of the backtesting engine of
`src/backtesting/engine.py` (class `BacktestEngine`) together with the
parts of `src/backtesting/strategies.py` needed by the claims.

Modelling conventions:
* Python floats are modelled as `ℚ` (exact arithmetic; none of the claims
  concerns floating-point rounding).
* Python `None` is `Option.none`; a fallible Python expression (an
  operation that can raise) is modelled in the `Except PyErr` monad.
  Python raises `ZeroDivisionError` on float division by zero, so every
  division of the source appears either behind the source's own guard or
  as an explicit `Except.error` case.
* The engine's `positions` dict (symbol → Position, insertion ordered) is
  an association list `List (String × Position)`; `order.status` strings
  "pending" / "filled" / "rejected" are the enumeration `OrderStatus`.
* `datetime` timestamps are `ℕ`; `timedelta` (only the `duration` field
  of `Trade`) is `ℤ`.  The source computes it as
  `self.current_time - pos.entry_time` inside the `Trade` constructor
  (engine.py line 297), which raises `TypeError` when either operand is
  `None` — before the trade is appended, cash credited or the position
  touched; `update_position` models that error path exactly.
* The transcendental float operations of `calculate_metrics`
  (`x ** y` for annualisation, `sqrt`) cannot be represented exactly in
  `ℚ`; they are taken as explicit function parameters (`rpow`, `sqrtQ`)
  plus the constant `sqrt252`, and every theorem holds for every
  interpretation of those parameters (with the stated, true-of-`Real.sqrt`
  side conditions where the source branches on `std > 0`).
-/

/-- Python exception kinds that the modelled code can raise. -/
inductive PyErr
| typeError
| zeroDivisionError
| indexError
deriving DecidableEq

/-- source: class OrderType (engine.py lines 20-25). -/
inductive OrderType
| market
| limit
| stop
| stop_limit
deriving DecidableEq

/-- source: class OrderSide (engine.py lines 28-31). -/
inductive OrderSide
| buy
| sell
deriving DecidableEq

/-- The `status` strings of the source: "pending" / "filled" / "rejected". -/
inductive OrderStatus
| pending
| filled
| rejected
deriving DecidableEq

/-- source: @dataclass Order (engine.py lines 34-47). -/
structure Order where
symbol : String
side : OrderSide
order_type : OrderType
quantity : ℚ
price : Option ℚ
stop_price : Option ℚ
timestamp : Option ℕ
filled_price : Option ℚ
commission : ℚ
slippage : ℚ
status : OrderStatus
deriving DecidableEq

/-- source: @dataclass Position (engine.py lines 50-59). -/
structure Position where
symbol : String
quantity : ℚ
entry_price : ℚ
current_price : ℚ
entry_time : Option ℕ
unrealized_pnl : ℚ
realized_pnl : ℚ
deriving DecidableEq

/-- source: @dataclass Trade (engine.py lines 62-75). -/
structure Trade where
symbol : String
entry_time : Option ℕ
exit_time : Option ℕ
entry_price : ℚ
exit_price : ℚ
quantity : ℚ
pnl : ℚ
pnl_percent : ℚ
commission : ℚ
side : OrderSide
duration : ℤ
deriving DecidableEq

/-- One row of `portfolio_history` (engine.py lines 384-390). -/
structure Snapshot where
timestamp : ℕ
cash : ℚ
portfolio_value : ℚ
positions : ℕ
num_trades : ℕ
deriving DecidableEq

/-- source: class BacktestEngine — configuration plus mutable state
(engine.py lines 88-123). -/
structure BacktestEngine where
initial_capital : ℚ
commission_rate : ℚ
slippage_rate : ℚ
max_position_size : ℚ
risk_free_rate : ℚ
cash : ℚ
positions : List (String × Position)
orders : List Order
trades : List Trade
portfolio_history : List Snapshot
current_time : Option ℕ
equity_curve : List ℚ
returns : List ℚ
deriving DecidableEq

/-- A freshly constructed engine (`__init__`, engine.py lines 88-123). -/
def BacktestEngine.mk0 (initial_capital commission_rate slippage_rate : ℚ) : BacktestEngine :=
{ initial_capital := initial_capital
  commission_rate := commission_rate
  slippage_rate := slippage_rate
  max_position_size := 1 / 5
  risk_free_rate := 1 / 50
  cash := initial_capital
  positions := []
  orders := []
  trades := []
  portfolio_history := []
  current_time := none
  equity_curve := []
  returns := [] }

/-- source: BacktestEngine.reset (engine.py lines 125-135). -/
def BacktestEngine.reset (e : BacktestEngine) : BacktestEngine :=
{ e with cash := e.initial_capital
         positions := []
         orders := []
         trades := []
         portfolio_history := []
         equity_curve := []
         returns := []
         current_time := none }

/-- source: BacktestEngine.get_portfolio_value (engine.py lines 137-143). -/
def BacktestEngine.get_portfolio_value (e : BacktestEngine) : ℚ :=
e.cash + (e.positions.map (fun p => p.2.quantity * p.2.current_price)).sum

/-- source: BacktestEngine.place_order (engine.py lines 145-179).
No validation of any kind is performed: the order is constructed PENDING
with exactly the supplied fields and appended to the order list. -/
def BacktestEngine.place_order (e : BacktestEngine) (symbol : String) (side : OrderSide)
    (quantity : ℚ) (order_type : OrderType) (price : Option ℚ) (stop_price : Option ℚ) :
    Order × BacktestEngine :=
let order : Order :=
  { symbol := symbol
    side := side
    order_type := order_type
    quantity := quantity
    price := price
    stop_price := stop_price
    timestamp := e.current_time
    filled_price := none
    commission := 0
    slippage := 0
    status := OrderStatus.pending }
(order, { e with orders := e.orders ++ [order] })

/-- The trigger test of `execute_order` (engine.py lines 195-215): returns
`some raw` with the raw execution price when the order type / side
condition matches the current price, `none` when the order is not
triggered, and a `TypeError` when the source would compare the price with
`None` (LIMIT with `order.price is None`, STOP with `order.stop_price is
None`).  For STOP_LIMIT no branch matches and `should_execute` stays
false. -/
def rawExecPrice (order : Order) (current_price : ℚ) : Except PyErr (Option ℚ) :=
match order.order_type with
| OrderType.market => Except.ok (some current_price)
| OrderType.limit =>
    match order.price with
    | none => Except.error PyErr.typeError
    | some p =>
        if order.side = OrderSide.buy then
          (if current_price ≤ p then Except.ok (some p) else Except.ok none)
        else
          (if p ≤ current_price then Except.ok (some p) else Except.ok none)
| OrderType.stop =>
    match order.stop_price with
    | none => Except.error PyErr.typeError
    | some sp =>
        if order.side = OrderSide.buy then
          (if sp ≤ current_price then Except.ok (some current_price) else Except.ok none)
        else
          (if current_price ≤ sp then Except.ok (some current_price) else Except.ok none)
| OrderType.stop_limit => Except.ok none

/-- Update an association-list entry in place (the Python dict assignment
`self.positions[symbol] = pos` for an existing key). -/
def setPos (ps : List (String × Position)) (sym : String) (p : Position) :
    List (String × Position) :=
ps.map (fun q => if q.1 = sym then (sym, p) else q)

/-- Remove a key (`del self.positions[symbol]`). -/
def delPos (ps : List (String × Position)) (sym : String) : List (String × Position) :=
ps.filter (fun q => q.1 ≠ sym)

/-- source: BacktestEngine._update_position (engine.py lines 247-310),
called only on a freshly FILLED order.  On the SELL path the `Trade`
constructor evaluates `pnl_percent` (ZeroDivisionError on a zero entry
price) and then `duration = current_time - entry_time` (TypeError on a
`None` operand), both BEFORE the trade is appended, cash credited or the
position mutated — matching Python keyword-argument evaluation order. -/
def BacktestEngine.update_position (e : BacktestEngine) (order : Order) :
    Except PyErr BacktestEngine :=
match order.filled_price with
| none => Except.error PyErr.typeError
| some fp =>
  match order.side with
  | OrderSide.buy =>
      match List.lookup order.symbol e.positions with
      | some pos =>
          let total_quantity := pos.quantity + order.quantity
          if total_quantity = 0 then Except.error PyErr.zeroDivisionError
          else
            let avg_price :=
              (pos.quantity * pos.entry_price + order.quantity * fp) / total_quantity
            let pos' := { pos with quantity := total_quantity, entry_price := avg_price }
            Except.ok { e with
              positions := setPos e.positions order.symbol pos'
              cash := e.cash - (order.quantity * fp + order.commission) }
      | none =>
          let pos : Position :=
            { symbol := order.symbol
              quantity := order.quantity
              entry_price := fp
              current_price := fp
              entry_time := e.current_time
              unrealized_pnl := 0
              realized_pnl := 0 }
          Except.ok { e with
            positions := e.positions ++ [(order.symbol, pos)]
            cash := e.cash - (order.quantity * fp + order.commission) }
  | OrderSide.sell =>
      match List.lookup order.symbol e.positions with
      | none => Except.ok e
      | some pos =>
          if pos.entry_price = 0 then Except.error PyErr.zeroDivisionError
          else
            match e.current_time, pos.entry_time with
            | some ct, some et =>
                let pnl := (fp - pos.entry_price) * order.quantity - order.commission
                let trade : Trade :=
                  { symbol := order.symbol
                    entry_time := pos.entry_time
                    exit_time := e.current_time
                    entry_price := pos.entry_price
                    exit_price := fp
                    quantity := order.quantity
                    pnl := pnl
                    pnl_percent := (fp / pos.entry_price - 1) * 100
                    commission := order.commission
                    side := OrderSide.sell
                    duration := (ct : ℤ) - (et : ℤ) }
                let pos' := { pos with
                  quantity := pos.quantity - order.quantity
                  realized_pnl := pos.realized_pnl + pnl }
                Except.ok { e with
                  trades := e.trades ++ [trade]
                  cash := e.cash + (order.quantity * fp - order.commission)
                  positions :=
                    if pos'.quantity ≤ 0 then delPos e.positions order.symbol
                    else setPos e.positions order.symbol pos' }
            | _, _ => Except.error PyErr.typeError

/-- source: BacktestEngine.execute_order (engine.py lines 181-245).
Returns `(executed?, the order as mutated by the call, the engine)`;
in the source the order is mutated in place, so callers that hold the
order inside `engine.orders` must substitute the returned order back
(done by `execPendingAux` below, mirroring the aliasing of the loop in
`run_backtest`).  The body after the trigger test (engine.py lines
219-245) is split into `fill_order`, which takes the slippage-adjusted
execution price as a parameter: compute commission, reject an
unaffordable BUY, otherwise mark the order FILLED and update the
position. -/
def BacktestEngine.fill_order (e : BacktestEngine) (order : Order)
    (current_price execution_price : ℚ) : Except PyErr (Bool × Order × BacktestEngine) :=
let trade_value := execution_price * order.quantity
let commission := trade_value * e.commission_rate
if order.side = OrderSide.buy ∧ e.cash < trade_value + commission then
  Except.ok (false, { order with status := OrderStatus.rejected }, e)
else
  let order' := { order with
    filled_price := some execution_price
    commission := commission
    slippage := |execution_price - current_price|
    status := OrderStatus.filled }
  match e.update_position order' with
  | Except.error err => Except.error err
  | Except.ok e' => Except.ok (true, order', e')

def BacktestEngine.execute_order (e : BacktestEngine) (order : Order) (current_price : ℚ) :
    Except PyErr (Bool × Order × BacktestEngine) :=
if order.status ≠ OrderStatus.pending then Except.ok (false, order, e)
else
  match rawExecPrice order current_price with
  | Except.error err => Except.error err
  | Except.ok none => Except.ok (false, order, e)
  | Except.ok (some raw) =>
      e.fill_order order current_price
        (if order.side = OrderSide.buy then raw * (1 + e.slippage_rate)
         else raw * (1 - e.slippage_rate))

/-- The per-position body of `update_positions`: mark to the bar's price
when the symbol has a quote. -/
def markPos (prices : List (String × ℚ)) (q : String × Position) : String × Position :=
match List.lookup q.1 prices with
| some p => (q.1, { q.2 with
    current_price := p
    unrealized_pnl := (p - q.2.entry_price) * q.2.quantity })
| none => q

/-- source: BacktestEngine.update_positions (engine.py lines 312-317). -/
def BacktestEngine.update_positions (e : BacktestEngine) (prices : List (String × ℚ)) :
    BacktestEngine :=
{ e with positions := e.positions.map (markPos prices) }

/-! ## The orchestration loop (`run_backtest`) and market data

The input DataFrame (MultiIndex `(timestamp, symbol)` with a `close`
column) is modelled as a list of rows `(timestamp, symbol, close)`.
`data.index.get_level_values(0).unique()` keeps the first occurrence of
each timestamp, in order of appearance. -/

/-- One row of the market-data table: (timestamp, symbol, close). -/
abbrev MarketData := List (ℕ × String × ℚ)

/-- pandas `.unique()` on the first index level: first occurrences, in
order of appearance. -/
def uniqueKeysAux (seen : List ℕ) : List ℕ → List ℕ
| [] => []
| t :: ts => if t ∈ seen then uniqueKeysAux seen ts else t :: uniqueKeysAux (t :: seen) ts

/-- Distinct timestamps of the data, in order of first appearance. -/
def uniqueKeys (l : List ℕ) : List ℕ := uniqueKeysAux [] l

/-- `data.loc[(timestamp, symbol), 'close']` (engine.py line 356); a
missing row is the `KeyError` branch, modelled as `none`. -/
def lookupClose (data : MarketData) (t : ℕ) (sym : String) : Option ℚ :=
(data.find? (fun r => r.1 = t ∧ r.2.1 = sym)).map (fun r => r.2.2)

/-- The `current_prices` dict built at each bar (engine.py lines 352-359):
symbols lacking a quote at this bar are skipped. -/
def currentPrices (data : MarketData) (t : ℕ) (symbols : List String) :
    List (String × ℚ) :=
symbols.filterMap (fun sym => (lookupClose data t sym).map (fun p => (sym, p)))

/-- A strategy signal: the keyword arguments of `place_order` that the
signal dicts of `strategies.py` carry. -/
structure Signal where
symbol : String
side : OrderSide
quantity : ℚ
order_type : OrderType
price : Option ℚ
stop_price : Option ℚ
deriving DecidableEq

/-- A strategy callable: `(data, timestamp, positions, cash) -> signals`.
Note it receives the FULL data table, exactly as `run_backtest` passes it
(engine.py line 370). -/
abbrev Strategy := MarketData → ℕ → List (String × Position) → ℚ → List Signal

/-- The pending-order pass of `run_backtest` (engine.py lines 364-367):
walk the order list in placement order, executing each still-pending
order whose symbol has a quote; the in-place mutation of each order is
modelled by rebuilding the list. -/
def execPendingAux (prices : List (String × ℚ)) (e : BacktestEngine) :
    List Order → Except PyErr (List Order × BacktestEngine)
| [] => Except.ok ([], e)
| o :: os =>
    if o.status = OrderStatus.pending then
      match List.lookup o.symbol prices with
      | some p =>
          match e.execute_order o p with
          | Except.error err => Except.error err
          | Except.ok (_, o', e') =>
              match execPendingAux prices e' os with
              | Except.error err => Except.error err
              | Except.ok (os', e'') => Except.ok (o' :: os', e'')
      | none =>
          match execPendingAux prices e os with
          | Except.error err => Except.error err
          | Except.ok (os', e'') => Except.ok (o :: os', e'')
    else
      match execPendingAux prices e os with
      | Except.error err => Except.error err
      | Except.ok (os', e'') => Except.ok (o :: os', e'')

/-- Execute every pending order of the engine against the bar's prices. -/
def BacktestEngine.process_pending (e : BacktestEngine) (prices : List (String × ℚ)) :
    Except PyErr BacktestEngine :=
match execPendingAux prices e e.orders with
| Except.error err => Except.error err
| Except.ok (os', e') => Except.ok { e' with orders := os' }

/-- Place every signal returned by the strategy
(`self.place_order(**signal)`, engine.py lines 373-374). -/
def placeSignals (e : BacktestEngine) (signals : List Signal) : BacktestEngine :=
signals.foldl
  (fun e s => (e.place_order s.symbol s.side s.quantity s.order_type s.price s.stop_price).2) e

/-- One iteration of the `run_backtest` loop (engine.py lines 349-398) at
loop index `i` and timestamp `t`. -/
def BacktestEngine.step (strategy : Strategy) (data : MarketData) (symbols : List String)
    (e : BacktestEngine) (i : ℕ) (t : ℕ) : Except PyErr BacktestEngine :=
let e1 := { e with current_time := some t }
let prices := currentPrices data t symbols
let e2 := e1.update_positions prices
match e2.process_pending prices with
| Except.error err => Except.error err
| Except.ok e3 =>
    let signals := strategy data t e3.positions e3.cash
    let e4 := placeSignals e3 signals
    let pv := e4.get_portfolio_value
    let e5 := { e4 with equity_curve := e4.equity_curve ++ [pv] }
    let snap : Snapshot :=
      { timestamp := t
        cash := e5.cash
        portfolio_value := pv
        positions := e5.positions.length
        num_trades := e5.trades.length }
    if i > 0 then
      match e5.equity_curve[i - 1]? with
      | none => Except.error PyErr.indexError
      | some prev =>
          if prev = 0 then Except.error PyErr.zeroDivisionError
          else Except.ok { e5 with
            returns := e5.returns ++ [pv / prev - 1]
            portfolio_history := e5.portfolio_history ++ [snap] }
    else Except.ok { e5 with portfolio_history := e5.portfolio_history ++ [snap] }

/-- The loop over timestamps, threading the loop index `i`. -/
def stepsFrom (strategy : Strategy) (data : MarketData) (symbols : List String) :
    ℕ → BacktestEngine → List ℕ → Except PyErr BacktestEngine
| _, e, [] => Except.ok e
| i, e, t :: ts =>
    match e.step strategy data symbols i t with
    | Except.error err => Except.error err
    | Except.ok e' => stepsFrom strategy data symbols (i + 1) e' ts

/-! ## calculate_metrics (engine.py lines 417-474)

Metric values live in `Option ℚ`: `none` models a float NaN (pandas
`std()` of fewer than two samples is NaN; a NaN compares false with `>`).
`sqrtQ`/`sqrt252`/`rpow` stand for `math.sqrt`-style float operations. -/

/-- pandas `Series.mean()` (callers guard non-emptiness per the source). -/
def listMean (xs : List ℚ) : ℚ := xs.sum / xs.length

/-- Sample variance with ddof = 1 (the pandas default): NaN (`none`) for
fewer than two observations. -/
def sampleVar (xs : List ℚ) : Option ℚ :=
if xs.length < 2 then none
else some ((xs.map (fun x => (x - listMean xs) ^ 2)).sum / (xs.length - 1))

/-- pandas `Series.std()` = sqrt of the ddof-1 sample variance. -/
def sampleStd (sqrtQ : ℚ → ℚ) (xs : List ℚ) : Option ℚ :=
(sampleVar xs).map sqrtQ

/-- `equity_series.expanding().max()`. -/
def runningMaxAux (m : ℚ) : List ℚ → List ℚ
| [] => []
| x :: xs => max m x :: runningMaxAux (max m x) xs

/-- Running maximum of the equity curve. -/
def runningMax : List ℚ → List ℚ
| [] => []
| x :: xs => x :: runningMaxAux x xs

/-- Minimum of a rational list (`none` on empty). -/
def minQ : List ℚ → Option ℚ
| [] => none
| x :: xs => some (xs.foldl min x)

/-- The NaN-aware `> 0` of the source's `returns_series.std() > 0`
(a float NaN compares false). -/
def optPos : Option ℚ → Bool
| none => false
| some s => decide (0 < s)

/-- Annualised volatility (engine.py line 430):
`returns_series.std() * np.sqrt(252) if len(returns_series) > 0 else 0`.
With exactly one observation the pandas `std()` is NaN (`none`) and the
NaN propagates through the product. -/
def annualVolatility (sqrtQ : ℚ → ℚ) (sqrt252 : ℚ) (returns : List ℚ) : Option ℚ :=
if 0 < returns.length then (sampleStd sqrtQ returns).map (fun s => s * sqrt252) else some 0

/-- Sharpe ratio (engine.py lines 433-438); the source guard
`len(returns_series) > 0 and returns_series.std() > 0` is false whenever
the std is NaN, so the result defaults to 0 then. -/
def sharpeRatio (sqrtQ : ℚ → ℚ) (sqrt252 rfr : ℚ) (returns : List ℚ) : Option ℚ :=
if 0 < returns.length ∧ optPos (sampleStd sqrtQ returns) = true then
  (sampleStd sqrtQ returns).map
    (fun s => listMean (returns.map (fun r => r - rfr / 252)) / s * sqrt252)
else some 0

/-- Maximum drawdown (engine.py lines 441-443): numpy division of
`(equity - running_max) / running_max` yields a non-finite value on a
zero running maximum — NaN when the equity entry is 0 (skipped by the
pandas `min`), -inf when it is negative (which pandas `min` would
return).  Both are collapsed to `none` here, exact for the NaN case;
the -inf case needs a non-positive equity prefix, which no stated
property reaches (every run with positive capital keeps equity
positive). -/
def maxDrawdown (equity : List ℚ) : Option ℚ :=
let dd := List.zipWith (fun v m => if m = 0 then none else some ((v - m) / m))
  equity (runningMax equity)
if 0 < dd.length then
  match minQ (dd.filterMap id) with
  | some v => some v
  | none => none
else some 0

/-- `win_rate` (engine.py line 449). -/
def winRate (trades : List Trade) : ℚ :=
if trades ≠ [] then ((trades.filter (fun t => 0 < t.pnl)).length : ℚ) / (trades.length : ℚ)
else 0

/-- `avg_win` (engine.py line 450). -/
def avgWin (trades : List Trade) : ℚ :=
if trades.filter (fun t => 0 < t.pnl) ≠ [] then
  listMean ((trades.filter (fun t => 0 < t.pnl)).map (fun t => t.pnl))
else 0

/-- `avg_loss` (engine.py line 451). -/
def avgLoss (trades : List Trade) : ℚ :=
if trades.filter (fun t => t.pnl ≤ 0) ≠ [] then
  listMean ((trades.filter (fun t => t.pnl ≤ 0)).map (fun t => t.pnl))
else 0

/-- `profit_factor` (engine.py lines 452-456). -/
def profitFactor (trades : List Trade) : ℚ :=
if trades.filter (fun t => t.pnl ≤ 0) ≠ [] ∧
    ((trades.filter (fun t => t.pnl ≤ 0)).map (fun t => t.pnl)).sum ≠ 0 then
  |((trades.filter (fun t => 0 < t.pnl)).map (fun t => t.pnl)).sum /
    ((trades.filter (fun t => t.pnl ≤ 0)).map (fun t => t.pnl)).sum|
else 0

/-- `annual_return` (engine.py lines 428-429), with `rpow` standing for
the float power `**` (its base `1 + total_return` is positive on the
branch where it is applied). -/
def annualReturn (rpow : ℚ → ℚ → ℚ) (total_return : ℚ) (n_days : ℕ) : ℚ :=
if -1 < total_return then
  rpow (1 + total_return) (if 0 < n_days then 252 / (n_days : ℚ) else 0) - 1
else -1

/-- The result dict literal of `calculate_metrics` (engine.py lines
458-474), as an ordered key/value list; a value of `none` is a float
NaN. -/
def metricsList (rpow : ℚ → ℚ → ℚ) (sqrtQ : ℚ → ℚ) (sqrt252 : ℚ) (e : BacktestEngine) :
    List (String × Option ℚ) :=
[("initial_value", some e.initial_capital),
 ("final_value", some e.get_portfolio_value),
 ("total_return", some (e.get_portfolio_value / e.initial_capital - 1)),
 ("annual_return",
    some (annualReturn rpow (e.get_portfolio_value / e.initial_capital - 1) e.returns.length)),
 ("annual_volatility", annualVolatility sqrtQ sqrt252 e.returns),
 ("sharpe_ratio", sharpeRatio sqrtQ sqrt252 e.risk_free_rate e.returns),
 ("max_drawdown", maxDrawdown e.equity_curve),
 ("total_trades", some (e.trades.length : ℚ)),
 ("winning_trades", some ((e.trades.filter (fun t => 0 < t.pnl)).length : ℚ)),
 ("losing_trades", some ((e.trades.filter (fun t => t.pnl ≤ 0)).length : ℚ)),
 ("win_rate", some (winRate e.trades)),
 ("avg_win", some (avgWin e.trades)),
 ("avg_loss", some (avgLoss e.trades)),
 ("profit_factor", some (profitFactor e.trades)),
 ("total_commission",
    some (((e.orders.filter (fun o => o.status = OrderStatus.filled)).map
      (fun o => o.commission)).sum))]

/-- source: BacktestEngine.calculate_metrics (engine.py lines 417-474).
The only fallible step is `total_return = final_value/initial_capital - 1`
on a zero initial capital; every other division sits behind the source's
own guard (or, for NaN-producing paths, yields a `none` value). -/
def BacktestEngine.calculate_metrics (rpow : ℚ → ℚ → ℚ) (sqrtQ : ℚ → ℚ) (sqrt252 : ℚ)
    (e : BacktestEngine) : Except PyErr (List (String × Option ℚ)) :=
if e.initial_capital = 0 then Except.error PyErr.zeroDivisionError
else Except.ok (metricsList rpow sqrtQ sqrt252 e)

/-- Dict lookup on a metrics result. -/
def getMetric (m : List (String × Option ℚ)) (k : String) : Option (Option ℚ) :=
(m.find? (fun kv => kv.1 = k)).map (fun kv => kv.2)

/-- source: BacktestEngine.run_backtest (engine.py lines 319-415).  The
pre-loop logging line `data.index[0]` raises IndexError on an empty
table; otherwise the engine is reset, every unique timestamp is stepped
in order of appearance, and `calculate_metrics` is returned together
with the final engine state. -/
def BacktestEngine.run_backtest (rpow : ℚ → ℚ → ℚ) (sqrtQ : ℚ → ℚ) (sqrt252 : ℚ)
    (e : BacktestEngine) (strategy : Strategy) (data : MarketData) (symbols : List String) :
    Except PyErr (BacktestEngine × List (String × Option ℚ)) :=
match data with
| [] => Except.error PyErr.indexError
| _ :: _ =>
    let timestamps := uniqueKeys (data.map (fun r => r.1))
    match stepsFrom strategy data symbols 0 e.reset timestamps with
    | Except.error err => Except.error err
    | Except.ok e' =>
        match e'.calculate_metrics rpow sqrtQ sqrt252 with
        | Except.error err => Except.error err
        | Except.ok m => Except.ok (e', m)

/-! ## Well-formedness predicates and invariants -/

/-- The spec's Order invariant (§3): positive quantity, positive limit /
stop prices where present, and LIMIT / STOP orders carry their price. -/
def OrderOK (o : Order) : Prop :=
0 < o.quantity ∧ (∀ x ∈ o.price, (0 : ℚ) < x) ∧ (∀ x ∈ o.stop_price, (0 : ℚ) < x) ∧
  (o.order_type = OrderType.limit → o.price ≠ none) ∧
  (o.order_type = OrderType.stop → o.stop_price ≠ none)

/-- A well-formed strategy signal (the signal-dict contract of §6). -/
def SignalOK (s : Signal) : Prop :=
0 < s.quantity ∧ (∀ x ∈ s.price, (0 : ℚ) < x) ∧ (∀ x ∈ s.stop_price, (0 : ℚ) < x) ∧
  (s.order_type = OrderType.limit → s.price ≠ none) ∧
  (s.order_type = OrderType.stop → s.stop_price ≠ none)

/-- Every open position has positive quantity, entry price and mark. -/
def PositionsOK (ps : List (String × Position)) : Prop :=
∀ p ∈ ps, 0 < p.2.quantity ∧ 0 < p.2.entry_price ∧ 0 < p.2.current_price

/-- Total market value of the open positions. -/
def posSum (ps : List (String × Position)) : ℚ :=
(ps.map (fun p => p.2.quantity * p.2.current_price)).sum

lemma pv_eq (e : BacktestEngine) : e.get_portfolio_value = e.cash + posSum e.positions := rfl

lemma posSum_nonneg {ps : List (String × Position)} (h : PositionsOK ps) : 0 ≤ posSum ps := by
  apply List.sum_nonneg
  intro x hx
  obtain ⟨p, hp, rfl⟩ := List.mem_map.mp hx
  obtain ⟨h1, _, h3⟩ := h p hp
  positivity

lemma posSum_pos {ps : List (String × Position)} (h : PositionsOK ps) (hne : ps ≠ []) :
    0 < posSum ps := by
  apply List.sum_pos
  · intro x hx
    obtain ⟨p, hp, rfl⟩ := List.mem_map.mp hx
    obtain ⟨h1, _, h3⟩ := h p hp
    positivity
  · simpa using hne

lemma lookup_mem {β : Type} {l : List (String × β)} {a : String} {b : β}
    (h : List.lookup a l = some b) : (a, b) ∈ l := by
  induction l with
  | nil => simp [List.lookup] at h
  | cons x xs ih =>
      rw [List.lookup] at h
      by_cases hx : a = x.1
      · subst hx
        simp at h
        subst h
        exact List.mem_cons_self _ _
      · have : (a == x.1) = false := beq_false_of_ne hx
        rw [this] at h
        exact List.mem_cons_of_mem _ (ih h)

lemma lookup_ne_nil {β : Type} {l : List (String × β)} {a : String} {b : β}
    (h : List.lookup a l = some b) : l ≠ [] := by
  intro hnil
  subst hnil
  simp [List.lookup] at h

lemma positionsOK_setPos {ps : List (String × Position)} {sym : String} {p : Position}
    (h : PositionsOK ps) (hp : 0 < p.quantity ∧ 0 < p.entry_price ∧ 0 < p.current_price) :
    PositionsOK (setPos ps sym p) := by
  intro x hx
  obtain ⟨q, hq, hqx⟩ := List.mem_map.mp hx
  by_cases hc : q.1 = sym
  · simp only [setPos, hc, if_pos] at hqx
    rw [← hqx]
    exact hp
  · simp only [setPos, hc, if_neg, ite_false] at hqx
    rw [← hqx]
    exact h q hq

lemma positionsOK_delPos {ps : List (String × Position)} {sym : String}
    (h : PositionsOK ps) : PositionsOK (delPos ps sym) := by
  intro x hx
  exact h x (List.mem_of_mem_filter hx)

lemma setPos_ne_nil {ps : List (String × Position)} {sym : String} {p : Position}
    (hne : ps ≠ []) : setPos ps sym p ≠ [] := by
  intro hc
  exact hne (List.map_eq_nil_iff.mp hc)

/-- Every open position carries a set entry time (true throughout the run
loop, where positions are only opened after `current_time` is set); needed
because a SELL fill computes `current_time - entry_time` and raises on a
`None` operand. -/
def PositionsTimed (ps : List (String × Position)) : Prop :=
∀ p ∈ ps, p.2.entry_time ≠ none

lemma positionsTimed_setPos {ps : List (String × Position)} {sym : String} {p : Position}
    (h : PositionsTimed ps) (hp : p.entry_time ≠ none) :
    PositionsTimed (setPos ps sym p) := by
  intro x hx
  obtain ⟨q, hq, hqx⟩ := List.mem_map.mp hx
  by_cases hc : q.1 = sym
  · simp only [setPos, hc, if_pos] at hqx
    rw [← hqx]
    exact hp
  · simp only [setPos, hc, if_neg, ite_false] at hqx
    rw [← hqx]
    exact h q hq

lemma positionsTimed_delPos {ps : List (String × Position)} {sym : String}
    (h : PositionsTimed ps) : PositionsTimed (delPos ps sym) := by
  intro x hx
  exact h x (List.mem_of_mem_filter hx)

lemma positionsTimed_markPos {prices : List (String × ℚ)} {ps : List (String × Position)}
    (h : PositionsTimed ps) : PositionsTimed (ps.map (markPos prices)) := by
  intro x hx
  obtain ⟨q, hq, hqx⟩ := List.mem_map.mp hx
  unfold markPos at hqx
  cases hlk : List.lookup q.1 prices <;> rw [hlk] at hqx <;> rw [← hqx] <;> exact h q hq

/-- The raw execution price produced by a triggered order is positive when
the current price and the order's optional prices are positive. -/
lemma rawExecPrice_pos {o : Order} {p raw : ℚ} (hp : 0 < p)
    (hlim : ∀ x ∈ o.price, (0 : ℚ) < x)
    (h : rawExecPrice o p = Except.ok (some raw)) : 0 < raw := by
  unfold rawExecPrice at h
  cases hot : o.order_type <;> rw [hot] at h <;> simp only [] at h
  · simp at h
    exact h ▸ hp
  · cases hop : o.price with
    | none => rw [hop] at h; simp at h
    | some x =>
        rw [hop] at h
        have hx : (0 : ℚ) < x := hlim x (by simp [hop])
        cases hs : o.side <;> rw [hs] at h <;> simp at h <;> split_ifs at h <;> simp_all
  · cases hop : o.stop_price with
    | none => rw [hop] at h; simp at h
    | some x =>
        rw [hop] at h
        cases hs : o.side <;> rw [hs] at h <;> simp at h <;> split_ifs at h <;> simp_all
  · simp at h

lemma posSum_append (ps : List (String × Position)) (x : String × Position) :
    posSum (ps ++ [x]) = posSum ps + x.2.quantity * x.2.current_price := by
  simp [posSum]

/-- `_update_position` preserves: nonnegative cash, positive positions,
positive portfolio value, and every engine field other than
cash / positions / trades. -/
lemma update_position_inv {e : BacktestEngine} {o : Order} {e' : BacktestEngine} {ep : ℚ}
    (hfp : o.filled_price = some ep) (hep : 0 < ep) (hq : 0 < o.quantity)
    (hbuy : o.side = OrderSide.buy → o.quantity * ep + o.commission ≤ e.cash)
    (hsell : o.side = OrderSide.sell → 0 < o.quantity * ep - o.commission)
    (hcash : 0 ≤ e.cash) (hpos : PositionsOK e.positions)
    (h : e.update_position o = Except.ok e') :
    0 ≤ e'.cash ∧ PositionsOK e'.positions ∧
    (0 < e.get_portfolio_value → 0 < e'.get_portfolio_value) ∧
    e'.initial_capital = e.initial_capital ∧
    e'.commission_rate = e.commission_rate ∧
    e'.slippage_rate = e.slippage_rate ∧
    e'.max_position_size = e.max_position_size ∧
    e'.risk_free_rate = e.risk_free_rate ∧
    e'.orders = e.orders ∧
    e'.equity_curve = e.equity_curve ∧
    e'.returns = e.returns ∧
    e'.portfolio_history = e.portfolio_history ∧
    e'.current_time = e.current_time ∧
    (e.current_time ≠ none → PositionsTimed e.positions → PositionsTimed e'.positions) := by
  unfold BacktestEngine.update_position at h
  rw [hfp] at h
  cases hside : o.side <;> rw [hside] at h <;> dsimp only at h
  · -- BUY
    have hble := hbuy hside
    cases hlk : List.lookup o.symbol e.positions <;> rw [hlk] at h <;> dsimp only at h
    · -- new position
      simp only [Except.ok.injEq] at h
      subst h
      have hnew : 0 ≤ e.cash - (o.quantity * ep + o.commission) := by linarith
      refine ⟨hnew, ?_, ?_, rfl, rfl, rfl, rfl, rfl, rfl, rfl, rfl, rfl, rfl, ?_⟩
      · intro x hx
        rcases List.mem_append.mp hx with hx | hx
        · exact hpos x hx
        · simp at hx
          subst hx
          exact ⟨hq, hep, hep⟩
      · intro hpv
        rw [pv_eq]
        dsimp only
        rw [posSum_append]
        have h2 : 0 < o.quantity * ep := mul_pos hq hep
        have h3 : 0 ≤ posSum e.positions := posSum_nonneg hpos
        dsimp only
        linarith
      · intro hct ht x hx
        rcases List.mem_append.mp hx with hx | hx
        · exact ht x hx
        · simp at hx
          subst hx
          exact hct
    · -- add to existing position
      rename_i pos
      have hmem := lookup_mem hlk
      obtain ⟨hq0, hen0, hcp0⟩ := hpos _ hmem
      have htq : 0 < pos.quantity + o.quantity := by linarith
      rw [if_neg (by intro hc; rw [hc] at htq; exact lt_irrefl 0 htq)] at h
      simp only [Except.ok.injEq] at h
      subst h
      have hnew : 0 ≤ e.cash - (o.quantity * ep + o.commission) := by linarith
      have hpok : PositionsOK (setPos e.positions o.symbol
          { pos with
            quantity := pos.quantity + o.quantity
            entry_price := (pos.quantity * pos.entry_price + o.quantity * ep) /
              (pos.quantity + o.quantity) }) := by
        apply positionsOK_setPos hpos
        refine ⟨htq, ?_, hcp0⟩
        apply div_pos ?_ htq
        have h1 : 0 < pos.quantity * pos.entry_price := mul_pos hq0 hen0
        have h2 : 0 < o.quantity * ep := mul_pos hq hep
        linarith
      refine ⟨hnew, hpok, ?_, rfl, rfl, rfl, rfl, rfl, rfl, rfl, rfl, rfl, rfl, ?_⟩
      · intro hpv
        rw [pv_eq]
        dsimp only
        have hsp : 0 < posSum (setPos e.positions o.symbol
            { pos with
              quantity := pos.quantity + o.quantity
              entry_price := (pos.quantity * pos.entry_price + o.quantity * ep) /
                (pos.quantity + o.quantity) }) :=
          posSum_pos hpok (setPos_ne_nil (lookup_ne_nil hlk))
        linarith
      · intro hct ht
        exact positionsTimed_setPos ht (ht _ hmem)
  · -- SELL
    cases hlk : List.lookup o.symbol e.positions <;> rw [hlk] at h <;> dsimp only at h
    · -- no position: warning logged, state unchanged
      simp only [Except.ok.injEq] at h
      subst h
      exact ⟨hcash, hpos, fun hx => hx, rfl, rfl, rfl, rfl, rfl, rfl, rfl, rfl, rfl, rfl,
        fun _ ht => ht⟩
    · rename_i pos
      have hmem := lookup_mem hlk
      obtain ⟨hq0, hen0, hcp0⟩ := hpos _ hmem
      rw [if_neg (by intro hc; rw [hc] at hen0; exact lt_irrefl 0 hen0)] at h
      rcases hct2 : e.current_time with _ | ct
      · rw [hct2] at h
        rcases het2 : pos.entry_time with _ | et <;> rw [het2] at h <;> simp at h
      · rw [hct2] at h
        rcases het2 : pos.entry_time with _ | et
        · rw [het2] at h
          simp at h
        · rw [het2] at h
          dsimp only at h
          simp only [Except.ok.injEq] at h
          subst h
          rw [← het2, ← hct2]
          have hgain := hsell hside
          have hnew : 0 < e.cash + (o.quantity * ep - o.commission) := by linarith
          have hpok : PositionsOK (if pos.quantity - o.quantity ≤ 0
              then delPos e.positions o.symbol
              else setPos e.positions o.symbol
                { pos with
                  quantity := pos.quantity - o.quantity
                  realized_pnl := pos.realized_pnl +
                    ((ep - pos.entry_price) * o.quantity - o.commission) }) := by
            split_ifs with hqz
            · exact positionsOK_delPos hpos
            · apply positionsOK_setPos hpos
              push_neg at hqz
              exact ⟨by dsimp only; linarith, hen0, hcp0⟩
          refine ⟨le_of_lt hnew, ?_, ?_, rfl, rfl, rfl, rfl, rfl, rfl, rfl, rfl, rfl,
            rfl, ?_⟩
          · exact hpok
          · intro hpv
            rw [pv_eq]
            dsimp only
            have hsp := posSum_nonneg hpok
            linarith
          · intro hct ht
            dsimp only
            split_ifs
            · exact positionsTimed_delPos ht
            · exact positionsTimed_setPos ht (ht _ hmem)


/-- `fill_order` preserves the state invariants and the identity of every
order field except the fill fields and status. -/
lemma fill_order_inv
    {e : BacktestEngine} {o : Order} {p ep : ℚ} {b : Bool} {o' : Order} {e' : BacktestEngine}
    (hc0 : 0 ≤ e.commission_rate) (hc1 : e.commission_rate < 1)
    (hep : 0 < ep) (hq : 0 < o.quantity)
    (hcash : 0 ≤ e.cash) (hpos : PositionsOK e.positions)
    (h : e.fill_order o p ep = Except.ok (b, o', e')) :
    0 ≤ e'.cash ∧ PositionsOK e'.positions ∧
    (0 < e.get_portfolio_value → 0 < e'.get_portfolio_value) ∧
    e'.initial_capital = e.initial_capital ∧
    e'.commission_rate = e.commission_rate ∧
    e'.slippage_rate = e.slippage_rate ∧
    e'.max_position_size = e.max_position_size ∧
    e'.risk_free_rate = e.risk_free_rate ∧
    e'.orders = e.orders ∧
    e'.equity_curve = e.equity_curve ∧
    e'.returns = e.returns ∧
    e'.portfolio_history = e.portfolio_history ∧
    e'.current_time = e.current_time ∧
    o'.symbol = o.symbol ∧ o'.side = o.side ∧ o'.order_type = o.order_type ∧
    o'.quantity = o.quantity ∧ o'.price = o.price ∧ o'.stop_price = o.stop_price ∧
    (e.current_time ≠ none → PositionsTimed e.positions → PositionsTimed e'.positions) := by
  unfold BacktestEngine.fill_order at h
  dsimp only at h
  split_ifs at h with hrej
  · simp only [Except.ok.injEq, Prod.mk.injEq] at h
    obtain ⟨hb, ho, he⟩ := h
    subst ho
    subst he
    exact ⟨hcash, hpos, fun hx => hx, rfl, rfl, rfl, rfl, rfl, rfl, rfl, rfl, rfl,
      rfl, rfl, rfl, rfl, rfl, rfl, rfl, fun _ ht => ht⟩
  · cases hup : e.update_position
      { o with
        filled_price := some ep
        commission := ep * o.quantity * e.commission_rate
        slippage := |ep - p|
        status := OrderStatus.filled } <;> rw [hup] at h
    · exact absurd h (by simp)
    · rename_i e2
      simp only [Except.ok.injEq, Prod.mk.injEq] at h
      obtain ⟨hb, ho, he⟩ := h
      subst ho
      subst he
      have hkey := update_position_inv (e := e)
        (o := { o with
          filled_price := some ep
          commission := ep * o.quantity * e.commission_rate
          slippage := |ep - p|
          status := OrderStatus.filled })
        rfl hep hq
        (by
          intro hside
          show o.quantity * ep + ep * o.quantity * e.commission_rate ≤ e.cash
          rw [not_and] at hrej
          have hthis := hrej hside
          push_neg at hthis
          linarith [hthis, mul_comm o.quantity ep])
        (by
          intro hside
          show 0 < o.quantity * ep - ep * o.quantity * e.commission_rate
          have h1 : 0 < ep * o.quantity := mul_pos hep hq
          nlinarith [h1, hc1, mul_comm o.quantity ep])
        hcash hpos hup
      obtain ⟨k1, k2, k3, k4, k5, k6, k7, k8, k9, k10, k11, k12, k13, k14⟩ := hkey
      exact ⟨k1, k2, k3, k4, k5, k6, k7, k8, k9, k10, k11, k12, k13,
        rfl, rfl, rfl, rfl, rfl, rfl, k14⟩

/-- `execute_order` preserves the state invariants and the identity of the
order's non-fill fields. -/
lemma execute_order_inv
    {e : BacktestEngine} {o : Order} {p : ℚ} {b : Bool} {o' : Order} {e' : BacktestEngine}
    (hc0 : 0 ≤ e.commission_rate) (hc1 : e.commission_rate < 1)
    (hs0 : 0 ≤ e.slippage_rate) (hs1 : e.slippage_rate < 1)
    (hp : 0 < p) (hq : 0 < o.quantity) (hlim : ∀ x ∈ o.price, (0 : ℚ) < x)
    (hcash : 0 ≤ e.cash) (hpos : PositionsOK e.positions)
    (h : e.execute_order o p = Except.ok (b, o', e')) :
    0 ≤ e'.cash ∧ PositionsOK e'.positions ∧
    (0 < e.get_portfolio_value → 0 < e'.get_portfolio_value) ∧
    e'.initial_capital = e.initial_capital ∧
    e'.commission_rate = e.commission_rate ∧
    e'.slippage_rate = e.slippage_rate ∧
    e'.max_position_size = e.max_position_size ∧
    e'.risk_free_rate = e.risk_free_rate ∧
    e'.orders = e.orders ∧
    e'.equity_curve = e.equity_curve ∧
    e'.returns = e.returns ∧
    e'.portfolio_history = e.portfolio_history ∧
    e'.current_time = e.current_time ∧
    o'.symbol = o.symbol ∧ o'.side = o.side ∧ o'.order_type = o.order_type ∧
    o'.quantity = o.quantity ∧ o'.price = o.price ∧ o'.stop_price = o.stop_price ∧
    (e.current_time ≠ none → PositionsTimed e.positions → PositionsTimed e'.positions) := by
  unfold BacktestEngine.execute_order at h
  by_cases hst : o.status = OrderStatus.pending
  · rw [if_neg (by simp [hst])] at h
    cases hraw : rawExecPrice o p <;> rw [hraw] at h
    · exact absurd h (by simp)
    · rename_i opt
      cases opt
      · simp only [Except.ok.injEq, Prod.mk.injEq] at h
        obtain ⟨hb, ho, he⟩ := h
        subst ho
        subst he
        exact ⟨hcash, hpos, fun hx => hx, rfl, rfl, rfl, rfl, rfl, rfl, rfl, rfl, rfl,
          rfl, rfl, rfl, rfl, rfl, rfl, rfl, fun _ ht => ht⟩
      · rename_i raw
        have hraw0 : 0 < raw := rawExecPrice_pos hp hlim hraw
        have hep : 0 < (if o.side = OrderSide.buy then raw * (1 + e.slippage_rate)
            else raw * (1 - e.slippage_rate)) := by
          split_ifs
          · have hx : (0 : ℚ) < 1 + e.slippage_rate := by linarith
            exact mul_pos hraw0 hx
          · have hx : (0 : ℚ) < 1 - e.slippage_rate := by linarith
            exact mul_pos hraw0 hx
        exact fill_order_inv hc0 hc1 hep hq hcash hpos h
  · rw [if_pos hst] at h
    simp only [Except.ok.injEq, Prod.mk.injEq] at h
    obtain ⟨hb, ho, he⟩ := h
    subst ho
    subst he
    exact ⟨hcash, hpos, fun hx => hx, rfl, rfl, rfl, rfl, rfl, rfl, rfl, rfl, rfl,
      rfl, rfl, rfl, rfl, rfl, rfl, rfl, fun _ ht => ht⟩

lemma positionsOK_markPos {prices : List (String × ℚ)} {ps : List (String × Position)}
    (hpr : ∀ q ∈ prices, (0 : ℚ) < q.2) (hpos : PositionsOK ps) :
    PositionsOK (ps.map (markPos prices)) := by
  intro x hx
  obtain ⟨q, hq, hqx⟩ := List.mem_map.mp hx
  obtain ⟨h1, h2, h3⟩ := hpos q hq
  unfold markPos at hqx
  cases hlk : List.lookup q.1 prices <;> rw [hlk] at hqx
  · subst hqx
    exact ⟨h1, h2, h3⟩
  · rename_i v
    have hv := hpr _ (lookup_mem hlk)
    subst hqx
    exact ⟨h1, h2, hv⟩

/-- `update_positions` preserves the invariants (cash is untouched and
every mark price supplied is positive). -/
lemma update_positions_inv {e : BacktestEngine} {prices : List (String × ℚ)}
    (hpr : ∀ q ∈ prices, (0 : ℚ) < q.2) (hcash : 0 ≤ e.cash) (hpos : PositionsOK e.positions) :
    PositionsOK (e.update_positions prices).positions ∧
    (0 < e.get_portfolio_value → 0 < (e.update_positions prices).get_portfolio_value) := by
  have hpok := positionsOK_markPos hpr hpos
  refine ⟨hpok, ?_⟩
  intro hpv
  rw [pv_eq] at hpv ⊢
  show 0 < e.cash + posSum (e.positions.map (markPos prices))
  by_cases hps : e.positions = []
  · rw [hps] at hpv ⊢
    simpa using hpv
  · have hne : e.positions.map (markPos prices) ≠ [] :=
      fun hc => hps (List.map_eq_nil_iff.mp hc)
    have hx := posSum_pos hpok hne
    linarith

/-- A pending BUY that triggers but costs more than the available cash is
REJECTED: the call returns false, the engine is unchanged, and only the
order's status field changes. -/
lemma execute_order_rejects {e : BacktestEngine} {o : Order} {p raw : ℚ}
    (hst : o.status = OrderStatus.pending) (hside : o.side = OrderSide.buy)
    (hraw : rawExecPrice o p = Except.ok (some raw))
    (hcost : e.cash < raw * (1 + e.slippage_rate) * o.quantity * (1 + e.commission_rate)) :
    e.execute_order o p = Except.ok (false, { o with status := OrderStatus.rejected }, e) := by
  unfold BacktestEngine.execute_order
  rw [if_neg (by simp [hst]), hraw]
  dsimp only
  rw [if_pos hside]
  unfold BacktestEngine.fill_order
  dsimp only
  rw [if_pos ?cnd]
  case cnd =>
    refine ⟨hside, ?_⟩
    have hx : raw * (1 + e.slippage_rate) * o.quantity * (1 + e.commission_rate)
        = raw * (1 + e.slippage_rate) * o.quantity
          + raw * (1 + e.slippage_rate) * o.quantity * e.commission_rate := by ring
    linarith [hx ▸ hcost]

/-- One state-mutating engine call, under claim C1's side conditions
(positive prices, positive order quantities, positive optional limit /
stop prices). -/
inductive EngineStep : BacktestEngine → BacktestEngine → Prop
| place (e : BacktestEngine) (sym : String) (side : OrderSide) (q : ℚ) (ot : OrderType)
    (pr sp : Option ℚ) (hq : 0 < q) (hpr : ∀ x ∈ pr, (0 : ℚ) < x)
    (hsp : ∀ x ∈ sp, (0 : ℚ) < x) :
    EngineStep e (e.place_order sym side q ot pr sp).2
| exec (e : BacktestEngine) (o : Order) (p : ℚ) (b : Bool) (o' : Order) (e' : BacktestEngine)
    (hp : 0 < p) (hq : 0 < o.quantity) (hpr : ∀ x ∈ o.price, (0 : ℚ) < x)
    (h : e.execute_order o p = Except.ok (b, o', e')) :
    EngineStep e e'
| upd (e : BacktestEngine) (prices : List (String × ℚ))
    (hpr : ∀ x ∈ prices, (0 : ℚ) < x.2) :
    EngineStep e (e.update_positions prices)

/-- Invariant along every `EngineStep` chain out of `reset`: cash stays
nonnegative, open positions stay positive, and the configured rates never
change. -/
lemma reachable_inv {e0 e : BacktestEngine}
    (hc0 : 0 ≤ e0.commission_rate) (hc1 : e0.commission_rate < 1)
    (hs0 : 0 ≤ e0.slippage_rate) (hs1 : e0.slippage_rate < 1)
    (hic : 0 ≤ e0.initial_capital)
    (h : Relation.ReflTransGen EngineStep e0.reset e) :
    0 ≤ e.cash ∧ PositionsOK e.positions ∧
    e.commission_rate = e0.commission_rate ∧ e.slippage_rate = e0.slippage_rate := by
  induction h with
  | refl =>
      refine ⟨hic, ?_, rfl, rfl⟩
      intro x hx
      simp [BacktestEngine.reset] at hx
  | tail hsteps hstep ih =>
      obtain ⟨ih1, ih2, ih3, ih4⟩ := ih
      cases hstep with
      | place sym side q ot pr sp hq hpr hsp =>
          exact ⟨ih1, ih2, ih3, ih4⟩
      | exec o p bb o' e' hp hq hpr hex =>
          have hkey := execute_order_inv (by rw [ih3]; exact hc0) (by rw [ih3]; exact hc1)
            (by rw [ih4]; exact hs0) (by rw [ih4]; exact hs1) hp hq hpr ih1 ih2 hex
          obtain ⟨k1, k2, _, _, k5, k6, _⟩ := hkey
          exact ⟨k1, k2, k5.trans ih3, k6.trans ih4⟩
      | upd prices hpr =>
          obtain ⟨k1, _⟩ := update_positions_inv hpr ih1 ih2
          exact ⟨ih1, k1, ih3, ih4⟩

lemma lookup_delPos (ps : List (String × Position)) (sym : String) :
    List.lookup sym (delPos ps sym) = none := by
  induction ps with
  | nil => rfl
  | cons a as ih =>
      by_cases hc : a.1 = sym
      · have h1 : delPos (a :: as) sym = delPos as sym := by
          simp [delPos, List.filter_cons, hc]
        rw [h1]
        exact ih
      · have h1 : delPos (a :: as) sym = a :: delPos as sym := by
          simp [delPos, List.filter_cons, hc]
        rw [h1, List.lookup]
        have hbeq : (sym == a.1) = false := beq_false_of_ne (fun hh => hc hh.symm)
        rw [hbeq]
        exact ih

lemma lookup_setPos {ps : List (String × Position)} {sym : String} {pos : Position}
    (p' : Position) (h : List.lookup sym ps = some pos) :
    List.lookup sym (setPos ps sym p') = some p' := by
  induction ps with
  | nil => simp [List.lookup] at h
  | cons a as ih =>
      by_cases hc : a.1 = sym
      · have h1 : setPos (a :: as) sym p' = (sym, p') :: setPos as sym p' := by
          simp [setPos, hc]
        rw [h1, List.lookup]
        simp
      · have h1 : setPos (a :: as) sym p' = a :: setPos as sym p' := by
          simp [setPos, hc]
        rw [List.lookup] at h
        have hbeq : (sym == a.1) = false := beq_false_of_ne (fun hh => hc hh.symm)
        rw [hbeq] at h
        rw [h1, List.lookup, hbeq]
        exact ih h

/-! ## Concrete fixtures -/

/-- The traded symbol of the spec's scenarios. -/
def sX : String := "X"

/-- Engine with the source's default parameters
(`initial_capital=100000`, `commission_rate=0.001`, `slippage_rate=0.0005`). -/
def defaultEngine : BacktestEngine := BacktestEngine.mk0 100000 (1 / 1000) (1 / 2000)

/-- Frictionless engine of the scenarios: capital 10000, no commission,
no slippage. -/
def plainEngine : BacktestEngine := BacktestEngine.mk0 10000 0 0

/-- A pending market order on "X". -/
def mkMarket (side : OrderSide) (q : ℚ) : Order :=
{ symbol := sX
  side := side
  order_type := OrderType.market
  quantity := q
  price := none
  stop_price := none
  timestamp := none
  filled_price := none
  commission := 0
  slippage := 0
  status := OrderStatus.pending }

/-- A pending limit order on "X". -/
def mkLimit (side : OrderSide) (q : ℚ) (L : Option ℚ) : Order :=
{ mkMarket side q with order_type := OrderType.limit, price := L }

/-- A pending stop-limit order on "X". -/
def mkStopLimit (q : ℚ) : Order :=
{ mkMarket OrderSide.buy q with
  order_type := OrderType.stop_limit
  price := some 95
  stop_price := some 99 }

/-- Engine state extracted from an `execute_order` result. -/
def exTriple (r : Except PyErr (Bool × Order × BacktestEngine)) (d : BacktestEngine) :
    BacktestEngine :=
match r with
| Except.ok (_, _, e) => e
| Except.error _ => d

/-- The frictionless engine with the clock set (as it is at every bar of
the run loop, engine.py line 350), so a SELL fill's
`current_time - entry_time` is a genuine datetime subtraction. -/
def plainEngineT : BacktestEngine := { plainEngine with current_time := some 0 }

/-- Scenario E chain: BUY 10 @ 100, BUY 10 @ 120, SELL 20 @ 130 on the
frictionless engine with the clock set. -/
def chain1 : BacktestEngine :=
exTriple (plainEngineT.execute_order (mkMarket OrderSide.buy 10) 100) plainEngineT

def chain2 : BacktestEngine :=
exTriple (chain1.execute_order (mkMarket OrderSide.buy 10) 120) plainEngineT

def chain3 : BacktestEngine :=
exTriple (chain2.execute_order (mkMarket OrderSide.sell 20) 130) plainEngineT

/-! ## Claims -/

/-- C1: for every engine state reachable from `reset()` by any sequence
of place_order / execute_order / update_positions calls with positive
prices and positive order quantities (and the engine's configured
commission and slippage rates genuine fractions in `[0,1)`, its starting
capital nonnegative), cash is nonnegative; and on every such state, a
PENDING BUY order that triggers at raw price `raw` whose slippage-adjusted
cost `raw*(1+slippage_rate)*quantity + commission` — i.e.
`raw*(1+slippage_rate)*quantity*(1+commission_rate)` — exceeds the current
cash is left REJECTED by `execute_order`, which returns false and the
engine unchanged (cash, positions and trades untouched; only the order's
status field changes). -/
theorem c1_cash_never_negative (e0 e : BacktestEngine)
    (hc0 : 0 ≤ e0.commission_rate) (hc1 : e0.commission_rate < 1)
    (hs0 : 0 ≤ e0.slippage_rate) (hs1 : e0.slippage_rate < 1)
    (hic : 0 ≤ e0.initial_capital)
    (hreach : Relation.ReflTransGen EngineStep e0.reset e) :
    0 ≤ e.cash ∧
    ∀ (o : Order) (p raw : ℚ),
      o.status = OrderStatus.pending → o.side = OrderSide.buy →
      rawExecPrice o p = Except.ok (some raw) →
      e.cash < raw * (1 + e.slippage_rate) * o.quantity * (1 + e.commission_rate) →
      e.execute_order o p
        = Except.ok (false, { o with status := OrderStatus.rejected }, e) := by
  obtain ⟨h1, _, _, _⟩ := reachable_inv hc0 hc1 hs0 hs1 hic hreach
  refine ⟨h1, ?_⟩
  intro o p raw hst hside hraw hcost
  exact execute_order_rejects hst hside hraw hcost

/-- Witness for C1 at the default engine configuration and the state
reached by reset alone. -/
theorem c1_witness :
    0 ≤ (defaultEngine.reset).cash ∧
    ∀ (o : Order) (p raw : ℚ),
      o.status = OrderStatus.pending → o.side = OrderSide.buy →
      rawExecPrice o p = Except.ok (some raw) →
      (defaultEngine.reset).cash <
        raw * (1 + (defaultEngine.reset).slippage_rate) * o.quantity *
          (1 + (defaultEngine.reset).commission_rate) →
      (defaultEngine.reset).execute_order o p
        = Except.ok (false, { o with status := OrderStatus.rejected }, defaultEngine.reset) :=
  c1_cash_never_negative defaultEngine defaultEngine.reset
    (by norm_num [defaultEngine, BacktestEngine.mk0])
    (by norm_num [defaultEngine, BacktestEngine.mk0])
    (by norm_num [defaultEngine, BacktestEngine.mk0])
    (by norm_num [defaultEngine, BacktestEngine.mk0])
    (by norm_num [defaultEngine, BacktestEngine.mk0])
    Relation.ReflTransGen.refl

/-- C2 counterexample: on the frictionless engine with the clock set,
after buying 10 shares of "X" at 100 (cash 9000, held quantity 10, held
value 1000 at the 100 mark), a SELL of 20 fills in full: the call
returns true, cash is credited the full `20 * 100 = 2000` — more than
the held value — and the position is deleted.  The sell was not capped
at the held quantity. -/
theorem c2_counterexample :
    (List.lookup sX chain1.positions).map (fun p => p.quantity) = some 10 ∧
    chain1.cash = 9000 ∧
    Except.map (fun r => (r.1, r.2.2.cash, r.2.2.positions))
        (chain1.execute_order (mkMarket OrderSide.sell 20) 100)
      = Except.ok (true, 11000, []) := by
  refine ⟨by with_unfolding_all rfl, by with_unfolding_all rfl, by with_unfolding_all rfl⟩

/-- C2 corrected: every OPEN position of a reachable state has strictly
positive quantity — a position whose quantity drops to ≤ 0 on a SELL is
deleted from the map — but SELL fills are NOT capped by the held
quantity: `_update_position` credits cash for the full order quantity
(`quantity*filled_price − commission`) regardless of how much is held. -/
theorem c2_amended_long_only_not_capped :
    (∀ e0 e : BacktestEngine,
      0 ≤ e0.commission_rate → e0.commission_rate < 1 →
      0 ≤ e0.slippage_rate → e0.slippage_rate < 1 → 0 ≤ e0.initial_capital →
      Relation.ReflTransGen EngineStep e0.reset e →
      ∀ q ∈ e.positions, 0 < q.2.quantity) ∧
    (∀ (e : BacktestEngine) (o : Order) (pos : Position) (fp : ℚ) (ct et : ℕ),
      o.side = OrderSide.sell → o.filled_price = some fp →
      List.lookup o.symbol e.positions = some pos → pos.entry_price ≠ 0 →
      e.current_time = some ct → pos.entry_time = some et →
      ∃ e2, e.update_position o = Except.ok e2 ∧
        e2.cash = e.cash + (o.quantity * fp - o.commission) ∧
        (pos.quantity - o.quantity ≤ 0 →
          List.lookup o.symbol e2.positions = none)) := by
  constructor
  · intro e0 e hc0 hc1 hs0 hs1 hic hreach q hq
    obtain ⟨_, h2, _, _⟩ := reachable_inv hc0 hc1 hs0 hs1 hic hreach
    exact (h2 q hq).1
  · intro e o pos fp ct et hside hfp hlk hen hct het
    unfold BacktestEngine.update_position
    rw [hfp, hside]
    dsimp only
    rw [hlk]
    dsimp only
    rw [if_neg hen, hct, het]
    dsimp only
    refine ⟨_, rfl, rfl, ?_⟩
    intro hle
    dsimp only
    split_ifs with hq2
    exact lookup_delPos e.positions o.symbol

/-- The SELL order of the C2 witness, as filled at price 100. -/
def sellFilled20 : Order :=
{ mkMarket OrderSide.sell 20 with filled_price := some 100, status := OrderStatus.filled }

/-- The position held by `chain1`: 10 shares of "X" at 100, opened at
the clock value the BUY filled at. -/
def posHeld10 : Position :=
{ symbol := sX
  quantity := 10
  entry_price := 100
  current_price := 100
  entry_time := some 0
  unrealized_pnl := 0
  realized_pnl := 0 }

/-- Witness for C2's amended statement: selling 20 out of a 10-share
position at 100 with no commission credits the full `20*100` and deletes
the position. -/
theorem c2_witness :
    ∃ e2, chain1.update_position sellFilled20 = Except.ok e2 ∧
      e2.cash = chain1.cash + (sellFilled20.quantity * 100 - sellFilled20.commission) ∧
      (posHeld10.quantity - sellFilled20.quantity ≤ 0 →
        List.lookup sellFilled20.symbol e2.positions = none) :=
  c2_amended_long_only_not_capped.2 chain1 sellFilled20 posHeld10 100 0 0 rfl rfl
    (by with_unfolding_all rfl) (by with_unfolding_all decide)
    (by with_unfolding_all rfl) rfl

/-- C6 counterexample: `place_order` performs no validation — a LIMIT
request without a limit price is constructed as a PENDING order with
`price = None` and appended to the order list, instead of failing at
construction. -/
theorem c6_counterexample :
    (plainEngine.place_order sX OrderSide.buy 10 OrderType.limit none none).1.status
        = OrderStatus.pending ∧
    (plainEngine.place_order sX OrderSide.buy 10 OrderType.limit none none).1.order_type
        = OrderType.limit ∧
    (plainEngine.place_order sX OrderSide.buy 10 OrderType.limit none none).1.price = none ∧
    (plainEngine.place_order sX OrderSide.buy 10 OrderType.limit none none).2.orders
        = plainEngine.orders ++
          [(plainEngine.place_order sX OrderSide.buy 10 OrderType.limit none none).1] :=
  ⟨rfl, rfl, rfl, rfl⟩

/-- C6 corrected: `place_order` never rejects anything — every request,
including LIMIT without a limit price and STOP without a stop price,
yields a PENDING order carrying exactly the supplied fields; the misuse
surfaces only later as a TypeError when `execute_order` compares the
missing price against the market price. -/
theorem c6_amended_no_validation :
    (∀ (e : BacktestEngine) (sym : String) (side : OrderSide) (q : ℚ) (ot : OrderType)
        (pr sp : Option ℚ),
      (e.place_order sym side q ot pr sp).1.status = OrderStatus.pending ∧
      (e.place_order sym side q ot pr sp).1.order_type = ot ∧
      (e.place_order sym side q ot pr sp).1.price = pr ∧
      (e.place_order sym side q ot pr sp).1.stop_price = sp ∧
      (e.place_order sym side q ot pr sp).2
        = { e with orders := e.orders ++ [(e.place_order sym side q ot pr sp).1] }) ∧
    (∀ (e : BacktestEngine) (o : Order) (p : ℚ),
      o.status = OrderStatus.pending → o.order_type = OrderType.limit → o.price = none →
      e.execute_order o p = Except.error PyErr.typeError) ∧
    (∀ (e : BacktestEngine) (o : Order) (p : ℚ),
      o.status = OrderStatus.pending → o.order_type = OrderType.stop → o.stop_price = none →
      e.execute_order o p = Except.error PyErr.typeError) := by
  refine ⟨fun e sym side q ot pr sp => ⟨rfl, rfl, rfl, rfl, rfl⟩, ?_, ?_⟩
  · intro e o p hst hot hpr
    unfold BacktestEngine.execute_order
    rw [if_neg (by simp [hst])]
    have hre : rawExecPrice o p = Except.error PyErr.typeError := by
      unfold rawExecPrice
      rw [hot, hpr]
    rw [hre]
  · intro e o p hst hot hpr
    unfold BacktestEngine.execute_order
    rw [if_neg (by simp [hst])]
    have hre : rawExecPrice o p = Except.error PyErr.typeError := by
      unfold rawExecPrice
      rw [hot, hpr]
    rw [hre]

/-- Witness for C6's corrected statement: executing a priceless LIMIT BUY
raises TypeError. -/
theorem c6_witness :
    plainEngine.execute_order (mkLimit OrderSide.buy 10 none) 100
      = Except.error PyErr.typeError :=
  c6_amended_no_validation.2.1 plainEngine (mkLimit OrderSide.buy 10 none) 100 rfl rfl rfl

/-- A STOP_LIMIT order never matches any `should_execute` branch. -/
lemma exec_stop_limit {e : BacktestEngine} {o : Order} {p : ℚ}
    (hot : o.order_type = OrderType.stop_limit) :
    e.execute_order o p = Except.ok (false, o, e) := by
  unfold BacktestEngine.execute_order
  by_cases hst : o.status = OrderStatus.pending
  · rw [if_neg (by simp [hst])]
    have hre : rawExecPrice o p = Except.ok none := by
      unfold rawExecPrice
      rw [hot]
    rw [hre]
  · rw [if_pos hst]

/-- The pending-order pass leaves every STOP_LIMIT order exactly where it
was, unchanged. -/
lemma execPendingAux_stop_limit (prices : List (String × ℚ)) (os : List Order) :
    ∀ (e : BacktestEngine) (os' : List Order) (e' : BacktestEngine),
      execPendingAux prices e os = Except.ok (os', e') →
      ∀ (i : ℕ) (o : Order), os[i]? = some o → o.order_type = OrderType.stop_limit →
        os'[i]? = some o := by
  induction os with
  | nil =>
      intro e os' e' h i o hi hot
      simp at hi
  | cons o0 os ih =>
      intro e os' e' h i o hi hot
      unfold execPendingAux at h
      by_cases hst : o0.status = OrderStatus.pending
      · rw [if_pos hst] at h
        cases hlk : List.lookup o0.symbol prices <;> rw [hlk] at h <;> dsimp only at h
        · cases hrec : execPendingAux prices e os <;> rw [hrec] at h
          · exact absurd h (by simp)
          · rename_i r
            obtain ⟨os2, e2⟩ := r
            simp only [Except.ok.injEq, Prod.mk.injEq] at h
            obtain ⟨h1, h2⟩ := h
            subst h1
            cases i with
            | zero =>
                simp at hi ⊢
                exact hi
            | succ j =>
                simp only [List.getElem?_cons_succ] at hi ⊢
                exact ih e os2 e2 hrec j o hi hot
        · rename_i pr
          cases hex : e.execute_order o0 pr <;> rw [hex] at h
          · exact absurd h (by simp)
          · rename_i t
            obtain ⟨bb, o0', e1⟩ := t
            dsimp only at h
            cases hrec : execPendingAux prices e1 os <;> rw [hrec] at h
            · exact absurd h (by simp)
            · rename_i r
              obtain ⟨os2, e2⟩ := r
              simp only [Except.ok.injEq, Prod.mk.injEq] at h
              obtain ⟨h1, h2⟩ := h
              subst h1
              cases i with
              | zero =>
                  simp only [List.getElem?_cons_zero, Option.some.injEq] at hi ⊢
                  subst hi
                  have hx := exec_stop_limit (e := e) (p := pr) hot
                  rw [hx] at hex
                  simp only [Except.ok.injEq, Prod.mk.injEq] at hex
                  exact hex.2.1.symm
              | succ j =>
                  simp only [List.getElem?_cons_succ] at hi ⊢
                  exact ih e1 os2 e2 hrec j o hi hot
      · rw [if_neg hst] at h
        cases hrec : execPendingAux prices e os <;> rw [hrec] at h
        · exact absurd h (by simp)
        · rename_i r
          obtain ⟨os2, e2⟩ := r
          simp only [Except.ok.injEq, Prod.mk.injEq] at h
          obtain ⟨h1, h2⟩ := h
          subst h1
          cases i with
          | zero =>
              simp at hi ⊢
              exact hi
          | succ j =>
              simp only [List.getElem?_cons_succ] at hi ⊢
              exact ih e os2 e2 hrec j o hi hot

/-- C9 (implicit): a STOP_LIMIT order can never fill — `execute_order`
returns false and leaves the order and the whole engine state (cash,
positions, trades) untouched, regardless of the current price and the
order's limit and stop prices; and the pending-order pass of
`run_backtest` leaves every STOP_LIMIT order in place unchanged, so it
remains PENDING for the entire backtest. -/
theorem c9_stop_limit_never_fills :
    (∀ (e : BacktestEngine) (o : Order) (p : ℚ), o.order_type = OrderType.stop_limit →
      e.execute_order o p = Except.ok (false, o, e)) ∧
    (∀ (prices : List (String × ℚ)) (e e' : BacktestEngine),
      e.process_pending prices = Except.ok e' →
      ∀ (i : ℕ) (o : Order), e.orders[i]? = some o → o.order_type = OrderType.stop_limit →
        e'.orders[i]? = some o) := by
  constructor
  · intro e o p hot
    exact exec_stop_limit hot
  · intro prices e e' h i o hi hot
    unfold BacktestEngine.process_pending at h
    cases haux : execPendingAux prices e e.orders <;> rw [haux] at h
    · exact absurd h (by simp)
    · rename_i r
      obtain ⟨os2, e2⟩ := r
      simp only [Except.ok.injEq] at h
      subst h
      exact execPendingAux_stop_limit prices e.orders e os2 e2 haux i o hi hot

/-- Witness for C9: a concrete STOP_LIMIT BUY against price 50 stays
pending and the engine is untouched. -/
theorem c9_witness :
    plainEngine.execute_order (mkStopLimit 5) 50
      = Except.ok (false, mkStopLimit 5, plainEngine) :=
  c9_stop_limit_never_fills.1 plainEngine (mkStopLimit 5) 50 rfl

/-- C10 (implicit): every Trade recorded by a SELL fill has
`pnl_percent = (exit_price/entry_price − 1)·100`, computed gross of
commission, while `pnl = (exit_price − entry_price)·quantity − commission`
is net of commission; hence a SELL at exactly the entry price with
positive commission yields `pnl_percent = 0` but `pnl < 0`. -/
theorem c10_trade_pnl :
    ∀ (e e2 : BacktestEngine) (o : Order) (pos : Position) (fp : ℚ),
      o.side = OrderSide.sell → o.filled_price = some fp →
      List.lookup o.symbol e.positions = some pos → pos.entry_price ≠ 0 →
      e.update_position o = Except.ok e2 →
      ∃ tr, e2.trades = e.trades ++ [tr] ∧
        tr.pnl = (fp - pos.entry_price) * o.quantity - o.commission ∧
        tr.pnl_percent = (fp / pos.entry_price - 1) * 100 ∧
        tr.exit_price = fp ∧ tr.entry_price = pos.entry_price ∧
        tr.commission = o.commission ∧
        (fp = pos.entry_price → 0 < o.commission → tr.pnl_percent = 0 ∧ tr.pnl < 0) := by
  intro e e2 o pos fp hside hfp hlk hen h
  unfold BacktestEngine.update_position at h
  rw [hfp, hside] at h
  dsimp only at h
  rw [hlk] at h
  dsimp only at h
  rw [if_neg hen] at h
  rcases hct2 : e.current_time with _ | ct
  · rw [hct2] at h
    rcases het2 : pos.entry_time with _ | et <;> rw [het2] at h <;> simp at h
  · rw [hct2] at h
    rcases het2 : pos.entry_time with _ | et
    · rw [het2] at h
      simp at h
    · rw [het2] at h
      dsimp only at h
      simp only [Except.ok.injEq] at h
      subst h
      refine ⟨_, rfl, rfl, rfl, rfl, rfl, rfl, ?_⟩
      intro heq hcomm
      constructor
      · dsimp only
        rw [heq, div_self hen]
        ring
      · dsimp only
        rw [heq]
        have hz : (pos.entry_price - pos.entry_price) * o.quantity - o.commission
            = -o.commission := by ring
        rw [hz]
        linarith

/-- The filled SELL used by the C10 witness: 10 shares at 100 with
commission 1. -/
def sellFilled10c : Order :=
{ mkMarket OrderSide.sell 10 with
  filled_price := some 100
  commission := 1
  status := OrderStatus.filled }

/-- Engine state after applying that fill to `chain1`. -/
def c10res : BacktestEngine :=
match chain1.update_position sellFilled10c with
| Except.ok e => e
| Except.error _ => chain1

/-- Witness for C10: selling the 10 @ 100 position at 100 with
commission 1 records a trade with `pnl_percent = 0` and `pnl = -1`. -/
theorem c10_witness :
    ∃ tr, c10res.trades = chain1.trades ++ [tr] ∧
      tr.pnl = (100 - posHeld10.entry_price) * sellFilled10c.quantity
        - sellFilled10c.commission ∧
      tr.pnl_percent = (100 / posHeld10.entry_price - 1) * 100 ∧
      tr.exit_price = 100 ∧ tr.entry_price = posHeld10.entry_price ∧
      tr.commission = sellFilled10c.commission ∧
      ((100 : ℚ) = posHeld10.entry_price → 0 < sellFilled10c.commission →
        tr.pnl_percent = 0 ∧ tr.pnl < 0) :=
  c10_trade_pnl chain1 c10res sellFilled10c posHeld10 100 rfl rfl
    (by with_unfolding_all rfl) (by with_unfolding_all decide) (by with_unfolding_all rfl)

/-- C7: a BUY fill on a symbol that already has an open position updates
it to the quantity-weighted average entry price
`(old_qty·old_avg + fill_qty·fill_price)/(old_qty+fill_qty)` and total
quantity `old_qty+fill_qty`; and, concretely, on the frictionless engine
two BUYs of 10 @ 100 then 10 @ 120 give a position (20, 110), and a SELL
of all 20 at 130 records a Trade with `pnl = (130−110)·20 − 0`. -/
theorem c7_weighted_average :
    (∀ (e e2 : BacktestEngine) (o : Order) (pos : Position) (fp : ℚ),
      o.side = OrderSide.buy → o.filled_price = some fp →
      List.lookup o.symbol e.positions = some pos → pos.quantity + o.quantity ≠ 0 →
      e.update_position o = Except.ok e2 →
      List.lookup o.symbol e2.positions = some
        { pos with
          quantity := pos.quantity + o.quantity
          entry_price := (pos.quantity * pos.entry_price + o.quantity * fp) /
            (pos.quantity + o.quantity) }) ∧
    ((List.lookup sX chain2.positions).map (fun p => (p.quantity, p.entry_price))
        = some (20, 110) ∧
      chain3.trades.map (fun t => t.pnl) = [(130 - 110) * 20 - 0] ∧
      chain3.positions = [] ∧ chain3.cash = 10400) := by
  constructor
  · intro e e2 o pos fp hside hfp hlk hnz h
    unfold BacktestEngine.update_position at h
    rw [hfp, hside] at h
    dsimp only at h
    rw [hlk] at h
    dsimp only at h
    rw [if_neg hnz] at h
    simp only [Except.ok.injEq] at h
    subst h
    dsimp only
    exact lookup_setPos _ hlk
  · exact ⟨by with_unfolding_all rfl, by with_unfolding_all rfl,
      by with_unfolding_all rfl, by with_unfolding_all rfl⟩

/-- The filled BUY of 10 @ 120 used by the C7 witness. -/
def buyFilled120 : Order :=
{ mkMarket OrderSide.buy 10 with
  filled_price := some 120
  status := OrderStatus.filled }

/-- Engine state after applying that fill to `chain1`. -/
def c7res : BacktestEngine :=
match chain1.update_position buyFilled120 with
| Except.ok e => e
| Except.error _ => chain1

/-- Witness for C7: adding 10 @ 120 to the 10 @ 100 position yields the
weighted-average position. -/
theorem c7_witness :
    List.lookup buyFilled120.symbol c7res.positions = some
      { posHeld10 with
        quantity := posHeld10.quantity + buyFilled120.quantity
        entry_price := (posHeld10.quantity * posHeld10.entry_price
            + buyFilled120.quantity * 120) /
          (posHeld10.quantity + buyFilled120.quantity) } :=
  c7_weighted_average.1 chain1 c7res buyFilled120 posHeld10 120 rfl rfl
    (by with_unfolding_all rfl) (by with_unfolding_all decide) (by with_unfolding_all rfl)

/-- C8 counterexample: with the source's default slippage rate 0.0005, a
pending LIMIT BUY at 95 triggered at close 90 fills at
`95·(1+0.0005) = 38019/400 = 95.0475`, not exactly 95. -/
theorem c8_counterexample :
    Except.map (fun r => (r.1, r.2.1.filled_price))
        (defaultEngine.execute_order (mkLimit OrderSide.buy 1 (some 95)) 90)
      = Except.ok (true, some (38019 / 400)) ∧ (38019 / 400 : ℚ) ≠ 95 :=
  ⟨by with_unfolding_all rfl, by norm_num⟩

/-- C8 corrected: a pending LIMIT BUY with limit price L stays PENDING
(returning false, engine unchanged) at every bar whose close exceeds L;
at a bar with close ≤ L it fills — provided the cost fits in cash — at
`filled_price = L·(1+slippage_rate)`, which equals L exactly only when
the slippage rate is zero. -/
theorem c8_amended_limit_fill :
    (∀ (e : BacktestEngine) (o : Order) (L p : ℚ),
      o.status = OrderStatus.pending → o.side = OrderSide.buy →
      o.order_type = OrderType.limit → o.price = some L → L < p →
      e.execute_order o p = Except.ok (false, o, e)) ∧
    (∀ (e : BacktestEngine) (o : Order) (L p : ℚ),
      o.status = OrderStatus.pending → o.side = OrderSide.buy →
      o.order_type = OrderType.limit → o.price = some L → p ≤ L →
      ¬ (e.cash < L * (1 + e.slippage_rate) * o.quantity
          + L * (1 + e.slippage_rate) * o.quantity * e.commission_rate) →
      List.lookup o.symbol e.positions = none →
      ∃ e2, e.execute_order o p = Except.ok (true,
        { o with
          filled_price := some (L * (1 + e.slippage_rate))
          commission := L * (1 + e.slippage_rate) * o.quantity * e.commission_rate
          slippage := |L * (1 + e.slippage_rate) - p|
          status := OrderStatus.filled }, e2)) := by
  constructor
  · intro e o L p hst hside hot hpr hL
    unfold BacktestEngine.execute_order
    rw [if_neg (by simp [hst])]
    have hre : rawExecPrice o p = Except.ok none := by
      unfold rawExecPrice
      rw [hot, hpr]
      dsimp only
      rw [if_pos hside, if_neg (not_le.mpr hL)]
    rw [hre]
  · intro e o L p hst hside hot hpr hple haff hlknone
    unfold BacktestEngine.execute_order
    rw [if_neg (by simp [hst])]
    have hre : rawExecPrice o p = Except.ok (some L) := by
      unfold rawExecPrice
      rw [hot, hpr]
      dsimp only
      rw [if_pos hside, if_pos hple]
    rw [hre]
    dsimp only
    rw [if_pos hside]
    unfold BacktestEngine.fill_order
    dsimp only
    rw [if_neg (by intro hc; exact haff hc.2)]
    have hup : e.update_position
        { o with
          filled_price := some (L * (1 + e.slippage_rate))
          commission := L * (1 + e.slippage_rate) * o.quantity * e.commission_rate
          slippage := |L * (1 + e.slippage_rate) - p|
          status := OrderStatus.filled }
        = Except.ok { e with
            positions := e.positions ++ [(o.symbol,
              { symbol := o.symbol
                quantity := o.quantity
                entry_price := L * (1 + e.slippage_rate)
                current_price := L * (1 + e.slippage_rate)
                entry_time := e.current_time
                unrealized_pnl := 0
                realized_pnl := 0 })]
            cash := e.cash - (o.quantity * (L * (1 + e.slippage_rate))
              + L * (1 + e.slippage_rate) * o.quantity * e.commission_rate) } := by
      unfold BacktestEngine.update_position
      dsimp only
      rw [hside]
      dsimp only
      rw [hlknone]
    rw [hup]
    exact ⟨_, rfl⟩

/-- Witness for C8's corrected statement: on the default engine a LIMIT
BUY of 1 at 95 triggered at close 90 fills at `95·(1+1/2000)`. -/
theorem c8_witness :
    ∃ e2, defaultEngine.execute_order (mkLimit OrderSide.buy 1 (some 95)) 90
      = Except.ok (true,
        { mkLimit OrderSide.buy 1 (some 95) with
          filled_price := some (95 * (1 + defaultEngine.slippage_rate))
          commission := 95 * (1 + defaultEngine.slippage_rate) * (mkLimit OrderSide.buy 1 (some 95)).quantity
            * defaultEngine.commission_rate
          slippage := |95 * (1 + defaultEngine.slippage_rate) - 90|
          status := OrderStatus.filled }, e2) :=
  c8_amended_limit_fill.2 defaultEngine (mkLimit OrderSide.buy 1 (some 95)) 95 90
    rfl rfl rfl rfl (by norm_num) (by with_unfolding_all decide) rfl

/-- Engine state with exactly one return observation — the state any
two-bar backtest produces. -/
def mOneReturn : BacktestEngine :=
{ plainEngine with equity_curve := [10000, 10000], returns := [0] }

/-- C5 counterexample: with exactly one return observation the pandas
ddof-1 `std()` is NaN, and `calculate_metrics` reports
`annual_volatility = NaN` (modelled `none`) — not 0 and not any finite
number — contradicting the claim that no result key is ever NaN and that
fewer than two observations give 0. -/
theorem c5_counterexample :
    Except.map (fun m => getMetric m ("annual_volatility"))
        (mOneReturn.calculate_metrics (fun b _ => b) (fun x => x) 16)
      = Except.ok (some none) ∧ mOneReturn.returns.length = 1 :=
  ⟨by with_unfolding_all rfl, rfl⟩

/-- C5 corrected: `calculate_metrics` raises only on zero initial
capital, and the guarded statistics do default to 0 — zero trades give
zero win_rate / avg_win / avg_loss / profit_factor; no losing trades, or
losing pnl summing to 0, give zero profit_factor; an empty equity curve
gives zero max_drawdown; an empty returns list gives zero
annual_volatility and sharpe_ratio; zero variance over ≥ 2 observations
gives zero annual_volatility and sharpe_ratio — BUT with exactly one
return observation annual_volatility is NaN (`none`), not 0: the
`len(returns) > 0` guard does not protect the ddof-1 std. -/
theorem c5_amended_metric_guards :
    ∀ (rpow : ℚ → ℚ → ℚ) (sqrtQ : ℚ → ℚ) (sqrt252 : ℚ) (e : BacktestEngine),
      sqrtQ 0 = 0 → e.initial_capital ≠ 0 →
      (e.calculate_metrics rpow sqrtQ sqrt252
          = Except.ok (metricsList rpow sqrtQ sqrt252 e)) ∧
      (e.trades = [] → winRate e.trades = 0 ∧ avgWin e.trades = 0 ∧ avgLoss e.trades = 0 ∧
        profitFactor e.trades = 0) ∧
      (e.trades.filter (fun t => t.pnl ≤ 0) = [] → profitFactor e.trades = 0) ∧
      (((e.trades.filter (fun t => t.pnl ≤ 0)).map (fun t => t.pnl)).sum = 0 →
        profitFactor e.trades = 0) ∧
      (e.equity_curve = [] → maxDrawdown e.equity_curve = some 0) ∧
      (e.returns = [] → annualVolatility sqrtQ sqrt252 e.returns = some 0 ∧
        sharpeRatio sqrtQ sqrt252 e.risk_free_rate e.returns = some 0) ∧
      (e.returns.length = 1 → annualVolatility sqrtQ sqrt252 e.returns = none ∧
        sharpeRatio sqrtQ sqrt252 e.risk_free_rate e.returns = some 0) ∧
      (2 ≤ e.returns.length → sampleVar e.returns = some 0 →
        annualVolatility sqrtQ sqrt252 e.returns = some 0 ∧
        sharpeRatio sqrtQ sqrt252 e.risk_free_rate e.returns = some 0) := by
  intro rpow sqrtQ sqrt252 e hsq hic
  refine ⟨?_, ?_, ?_, ?_, ?_, ?_, ?_, ?_⟩
  · unfold BacktestEngine.calculate_metrics
    rw [if_neg hic]
  · intro ht
    refine ⟨?_, ?_, ?_, ?_⟩ <;> simp [winRate, avgWin, avgLoss, profitFactor, ht]
  · intro ht
    simp [profitFactor, ht]
  · intro ht
    simp [profitFactor, ht]
  · intro ht
    simp [maxDrawdown, ht]
  · intro ht
    constructor <;> simp [annualVolatility, sharpeRatio, ht]
  · intro ht
    have hstd : sampleStd sqrtQ e.returns = none := by
      simp [sampleStd, sampleVar, ht]
    constructor
    · simp [annualVolatility, ht, hstd]
    · simp [sharpeRatio, ht, hstd, optPos]
  · intro hlen hvar
    have hstd : sampleStd sqrtQ e.returns = some 0 := by
      simp [sampleStd, hvar, hsq]
    have hlen0 : 0 < e.returns.length := by omega
    constructor
    · simp [annualVolatility, hlen0, hstd]
    · simp [sharpeRatio, hstd, optPos]

/-- Witness for C5's corrected statement at the one-return state. -/
theorem c5_witness :
    annualVolatility (fun x => x) 16 mOneReturn.returns = none ∧
    sharpeRatio (fun x => x) 16 mOneReturn.risk_free_rate mOneReturn.returns = some 0 :=
  (c5_amended_metric_guards (fun b _ => b) (fun x => x) 16 mOneReturn rfl
    (by with_unfolding_all decide)).2.2.2.2.2.2.1 rfl

/-- The trigger test never raises on a well-formed order (LIMIT orders
carry a limit price, STOP orders a stop price). -/
lemma rawExecPrice_total {o : Order} (p : ℚ) (ho : OrderOK o) :
    ∃ r, rawExecPrice o p = Except.ok r := by
  obtain ⟨_, _, _, hl, hs⟩ := ho
  unfold rawExecPrice
  cases hot : o.order_type
  · exact ⟨_, rfl⟩
  · cases hop : o.price with
    | none => exact absurd hop (hl hot)
    | some L =>
        dsimp only
        split_ifs <;> exact ⟨_, rfl⟩
  · cases hop : o.stop_price with
    | none => exact absurd hop (hs hot)
    | some sp =>
        dsimp only
        split_ifs <;> exact ⟨_, rfl⟩
  · exact ⟨_, rfl⟩

/-- `_update_position` never raises on a filled order with positive
quantity against a well-formed positions map, provided the clock is set
and every open position carries an entry time (both hold at every bar of
the run loop) — otherwise a SELL against an open position would raise a
TypeError computing `current_time - entry_time`. -/
lemma update_position_total {e : BacktestEngine} {o : Order} {ep : ℚ}
    (hfp : o.filled_price = some ep) (hq : 0 < o.quantity)
    (hpos : PositionsOK e.positions)
    (hct : e.current_time ≠ none) (htimed : PositionsTimed e.positions) :
    ∃ e2, e.update_position o = Except.ok e2 := by
  unfold BacktestEngine.update_position
  rw [hfp]
  cases hside : o.side <;> dsimp only
  · cases hlk : List.lookup o.symbol e.positions
    · exact ⟨_, rfl⟩
    · rename_i pos
      obtain ⟨hq0, _, _⟩ := hpos _ (lookup_mem hlk)
      dsimp only
      rw [if_neg (by intro hc; nlinarith [hq0, hq, hc])]
      exact ⟨_, rfl⟩
  · cases hlk : List.lookup o.symbol e.positions
    · exact ⟨_, rfl⟩
    · rename_i pos
      obtain ⟨_, hen0, _⟩ := hpos _ (lookup_mem hlk)
      dsimp only
      rw [if_neg (by intro hc; rw [hc] at hen0; exact lt_irrefl 0 hen0)]
      obtain ⟨ct, hct2⟩ := Option.ne_none_iff_exists'.mp hct
      obtain ⟨et, het2⟩ := Option.ne_none_iff_exists'.mp (htimed _ (lookup_mem hlk))
      rw [hct2, het2]
      exact ⟨_, rfl⟩

/-- `execute_order` never raises on a well-formed order against a
well-formed engine state. -/
lemma execute_order_total {e : BacktestEngine} {o : Order} {p : ℚ}
    (ho : OrderOK o) (hpos : PositionsOK e.positions)
    (hct : e.current_time ≠ none) (htimed : PositionsTimed e.positions) :
    ∃ b o' e', e.execute_order o p = Except.ok (b, o', e') := by
  unfold BacktestEngine.execute_order
  by_cases hst : o.status = OrderStatus.pending
  · rw [if_neg (by simp [hst])]
    obtain ⟨r, hr⟩ := rawExecPrice_total p ho
    rw [hr]
    cases r with
    | none => exact ⟨_, _, _, rfl⟩
    | some raw =>
        dsimp only
        unfold BacktestEngine.fill_order
        dsimp only
        by_cases hrej : o.side = OrderSide.buy ∧
            e.cash < (if o.side = OrderSide.buy then raw * (1 + e.slippage_rate)
                else raw * (1 - e.slippage_rate)) * o.quantity +
              (if o.side = OrderSide.buy then raw * (1 + e.slippage_rate)
                else raw * (1 - e.slippage_rate)) * o.quantity * e.commission_rate
        · rw [if_pos hrej]
          exact ⟨_, _, _, rfl⟩
        · rw [if_neg hrej]
          obtain ⟨e2, he2⟩ := update_position_total (e := e)
            (o := { o with
              filled_price := some (if o.side = OrderSide.buy
                then raw * (1 + e.slippage_rate) else raw * (1 - e.slippage_rate))
              commission := (if o.side = OrderSide.buy
                then raw * (1 + e.slippage_rate) else raw * (1 - e.slippage_rate))
                * o.quantity * e.commission_rate
              slippage := |(if o.side = OrderSide.buy
                then raw * (1 + e.slippage_rate) else raw * (1 - e.slippage_rate)) - p|
              status := OrderStatus.filled })
            rfl ho.1 hpos hct htimed
          rw [he2]
          exact ⟨_, _, _, rfl⟩
  · rw [if_pos hst]
    exact ⟨_, _, _, rfl⟩

/-- `OrderOK` depends only on the fields that `execute_order` never
changes. -/
lemma orderOK_of_eq {o o' : Order} (h1 : o'.quantity = o.quantity) (h2 : o'.price = o.price)
    (h3 : o'.stop_price = o.stop_price) (h4 : o'.order_type = o.order_type)
    (ho : OrderOK o) : OrderOK o' := by
  unfold OrderOK at *
  rw [h1, h2, h3, h4]
  exact ho

lemma lookup_pos {prices : List (String × ℚ)} {sym : String} {p : ℚ}
    (hpr : ∀ x ∈ prices, (0 : ℚ) < x.2) (h : List.lookup sym prices = some p) : 0 < p :=
  hpr _ (lookup_mem h)

/-- The pending-order pass never raises and preserves every invariant. -/
lemma execPendingAux_total {prices : List (String × ℚ)}
    (hpr : ∀ x ∈ prices, (0 : ℚ) < x.2) :
    ∀ (os : List Order) (e : BacktestEngine),
      0 ≤ e.commission_rate → e.commission_rate < 1 →
      0 ≤ e.slippage_rate → e.slippage_rate < 1 →
      0 ≤ e.cash → PositionsOK e.positions → (∀ o ∈ os, OrderOK o) →
      e.current_time ≠ none → PositionsTimed e.positions →
      ∃ os' e', execPendingAux prices e os = Except.ok (os', e') ∧
        0 ≤ e'.cash ∧ PositionsOK e'.positions ∧
        (0 < e.get_portfolio_value → 0 < e'.get_portfolio_value) ∧
        (∀ o ∈ os', OrderOK o) ∧
        e'.initial_capital = e.initial_capital ∧
        e'.commission_rate = e.commission_rate ∧
        e'.slippage_rate = e.slippage_rate ∧
        e'.risk_free_rate = e.risk_free_rate ∧
        e'.orders = e.orders ∧
        e'.equity_curve = e.equity_curve ∧
        e'.returns = e.returns ∧
        e'.portfolio_history = e.portfolio_history ∧
        e'.current_time = e.current_time ∧
        PositionsTimed e'.positions := by
  intro os
  induction os with
  | nil =>
      intro e hc0 hc1 hs0 hs1 hcash hpos hords hct htimed
      exact ⟨[], e, rfl, hcash, hpos, fun hx => hx, by simp, rfl, rfl, rfl, rfl, rfl,
        rfl, rfl, rfl, rfl, htimed⟩
  | cons o0 os ih =>
      intro e hc0 hc1 hs0 hs1 hcash hpos hords hct htimed
      have ho0 : OrderOK o0 := hords o0 (List.mem_cons_self _ _)
      have hords' : ∀ o ∈ os, OrderOK o := fun o ho => hords o (List.mem_cons_of_mem _ ho)
      unfold execPendingAux
      by_cases hst : o0.status = OrderStatus.pending
      · rw [if_pos hst]
        cases hlk : List.lookup o0.symbol prices
        · dsimp only
          obtain ⟨os', e', hrec, k1, k2, k3, k4, k5, k6, k7, k8, k9, k10, k11, k12, k13,
            k14⟩ :=
            ih e hc0 hc1 hs0 hs1 hcash hpos hords' hct htimed
          rw [hrec]
          exact ⟨o0 :: os', e', rfl, k1, k2, k3, by
            intro o hmem
            rcases List.mem_cons.mp hmem with hmem | hmem
            · exact hmem ▸ ho0
            · exact k4 o hmem, k5, k6, k7, k8, k9, k10, k11, k12, k13, k14⟩
        · rename_i pr
          try dsimp only
          obtain ⟨bb, o0', e1, hex⟩ := execute_order_total (p := pr) ho0 hpos hct htimed
          rw [hex]
          try dsimp only
          have hppos : 0 < pr := lookup_pos hpr hlk
          obtain ⟨j1, j2, j3, j4, j5, j6, j7, j8, j9, j10, j11, j12, j13, j14, j15,
            j16, j17, j18, j19, j20⟩ :=
            execute_order_inv hc0 hc1 hs0 hs1 hppos ho0.1 ho0.2.1 hcash hpos hex
          obtain ⟨os', e', hrec, k1, k2, k3, k4, k5, k6, k7, k8, k9, k10, k11, k12, k13,
            k14⟩ :=
            ih e1 (j5 ▸ hc0) (j5 ▸ hc1) (j6 ▸ hs0) (j6 ▸ hs1) j1 j2 hords'
              (by rw [j13]; exact hct) (j20 hct htimed)
          rw [hrec]
          refine ⟨o0' :: os', e', rfl, k1, k2, fun hx => k3 (j3 hx), ?_,
            k5.trans j4, k6.trans j5, k7.trans j6, k8.trans j8, k9.trans j9,
            k10.trans j10, k11.trans j11, k12.trans j12, k13.trans j13, k14⟩
          intro o hmem
          rcases List.mem_cons.mp hmem with hmem | hmem
          · exact hmem ▸ orderOK_of_eq j17 j18 j19 j16 ho0
          · exact k4 o hmem
      · rw [if_neg hst]
        try dsimp only
        obtain ⟨os', e', hrec, k1, k2, k3, k4, k5, k6, k7, k8, k9, k10, k11, k12, k13,
          k14⟩ :=
          ih e hc0 hc1 hs0 hs1 hcash hpos hords' hct htimed
        rw [hrec]
        exact ⟨o0 :: os', e', rfl, k1, k2, k3, by
          intro o hmem
          rcases List.mem_cons.mp hmem with hmem | hmem
          · exact hmem ▸ ho0
          · exact k4 o hmem, k5, k6, k7, k8, k9, k10, k11, k12, k13, k14⟩

/-- `process_pending` never raises and preserves the invariants. -/
lemma process_pending_total {e : BacktestEngine} {prices : List (String × ℚ)}
    (hpr : ∀ x ∈ prices, (0 : ℚ) < x.2)
    (hc0 : 0 ≤ e.commission_rate) (hc1 : e.commission_rate < 1)
    (hs0 : 0 ≤ e.slippage_rate) (hs1 : e.slippage_rate < 1)
    (hcash : 0 ≤ e.cash) (hpos : PositionsOK e.positions)
    (hords : ∀ o ∈ e.orders, OrderOK o)
    (hct : e.current_time ≠ none) (htimed : PositionsTimed e.positions) :
    ∃ e', e.process_pending prices = Except.ok e' ∧
      0 ≤ e'.cash ∧ PositionsOK e'.positions ∧
      (0 < e.get_portfolio_value → 0 < e'.get_portfolio_value) ∧
      (∀ o ∈ e'.orders, OrderOK o) ∧
      e'.initial_capital = e.initial_capital ∧
      e'.commission_rate = e.commission_rate ∧
      e'.slippage_rate = e.slippage_rate ∧
      e'.risk_free_rate = e.risk_free_rate ∧
      e'.equity_curve = e.equity_curve ∧
      e'.returns = e.returns ∧
      e'.portfolio_history = e.portfolio_history ∧
      e'.current_time = e.current_time ∧
      PositionsTimed e'.positions := by
  obtain ⟨os', e2, haux, k1, k2, k3, k4, k5, k6, k7, k8, k9, k10, k11, k12, k13, k14⟩ :=
    execPendingAux_total hpr e.orders e hc0 hc1 hs0 hs1 hcash hpos hords hct htimed
  refine ⟨{ e2 with orders := os' }, ?_, k1, k2, ?_, k4, k5, k6, k7, k8, k10, k11, k12,
    k13, k14⟩
  · unfold BacktestEngine.process_pending
    rw [haux]
  · intro hx
    have := k3 hx
    rw [pv_eq] at this ⊢
    exact this

/-- Every price in the per-bar `current_prices` dict comes from a data
row, hence is positive when all closes are. -/
lemma currentPrices_pos {data : MarketData} (hdata : ∀ r ∈ data, (0 : ℚ) < r.2.2)
    (t : ℕ) (symbols : List String) :
    ∀ x ∈ currentPrices data t symbols, (0 : ℚ) < x.2 := by
  intro x hx
  unfold currentPrices at hx
  obtain ⟨sym, hsym, hlc⟩ := List.mem_filterMap.mp hx
  cases hv : lookupClose data t sym <;> rw [hv] at hlc
  · simp at hlc
  · rename_i v
    simp at hlc
    subst hlc
    unfold lookupClose at hv
    cases hf : data.find? (fun r => r.1 = t ∧ r.2.1 = sym) <;> rw [hf] at hv
    · simp at hv
    · rename_i row
      simp at hv
      subst hv
      exact hdata row (List.mem_of_find?_eq_some hf)

/-- `placeSignals` only appends well-formed PENDING orders; cash,
positions and everything except the order list are untouched. -/
lemma placeSignals_inv (sigs : List Signal) :
    ∀ (e : BacktestEngine), (∀ s ∈ sigs, SignalOK s) →
      (placeSignals e sigs).cash = e.cash ∧
      (placeSignals e sigs).positions = e.positions ∧
      (placeSignals e sigs).trades = e.trades ∧
      (placeSignals e sigs).initial_capital = e.initial_capital ∧
      (placeSignals e sigs).commission_rate = e.commission_rate ∧
      (placeSignals e sigs).slippage_rate = e.slippage_rate ∧
      (placeSignals e sigs).risk_free_rate = e.risk_free_rate ∧
      (placeSignals e sigs).equity_curve = e.equity_curve ∧
      (placeSignals e sigs).returns = e.returns ∧
      (placeSignals e sigs).portfolio_history = e.portfolio_history ∧
      (placeSignals e sigs).current_time = e.current_time ∧
      ((∀ o ∈ e.orders, OrderOK o) → ∀ o ∈ (placeSignals e sigs).orders, OrderOK o) := by
  induction sigs with
  | nil =>
      intro e hs
      exact ⟨rfl, rfl, rfl, rfl, rfl, rfl, rfl, rfl, rfl, rfl, rfl, fun h => h⟩
  | cons s0 sigs ih =>
      intro e hs
      have hs0 : SignalOK s0 := hs s0 (List.mem_cons_self _ _)
      have hrest : ∀ s ∈ sigs, SignalOK s := fun s hm => hs s (List.mem_cons_of_mem _ hm)
      have hstep : placeSignals e (s0 :: sigs)
          = placeSignals
            (e.place_order s0.symbol s0.side s0.quantity s0.order_type s0.price s0.stop_price).2
            sigs := rfl
      obtain ⟨k1, k2, k3, k4, k5, k6, k7, k8, k9, k10, k11, k12⟩ :=
        ih (e.place_order s0.symbol s0.side s0.quantity s0.order_type s0.price s0.stop_price).2
          hrest
      rw [hstep]
      refine ⟨k1, k2, k3, k4, k5, k6, k7, k8, k9, k10, k11, ?_⟩
      intro hords o hmem
      apply k12 ?_ o hmem
      intro o2 hmem2
      have : o2 ∈ e.orders ++
          [(e.place_order s0.symbol s0.side s0.quantity s0.order_type s0.price s0.stop_price).1]
          := hmem2
      rcases List.mem_append.mp this with hmm | hmm
      · exact hords o2 hmm
      · simp at hmm
        subst hmm
        exact ⟨hs0.1, hs0.2.1, hs0.2.2.1, hs0.2.2.2.1, hs0.2.2.2.2⟩

/-- The loop invariant of `run_backtest`: sane rates, nonnegative cash,
well-formed positive positions, strictly positive portfolio value,
well-formed orders, an equity curve of length `i` with positive entries,
and every open position stamped with an entry time (so a SELL fill's
`current_time - entry_time` never sees a `None` operand). -/
def LoopInv (e : BacktestEngine) (i : ℕ) : Prop :=
0 ≤ e.commission_rate ∧ e.commission_rate < 1 ∧
  0 ≤ e.slippage_rate ∧ e.slippage_rate < 1 ∧
  0 ≤ e.cash ∧ PositionsOK e.positions ∧ 0 < e.get_portfolio_value ∧
  (∀ o ∈ e.orders, OrderOK o) ∧
  e.equity_curve.length = i ∧ (∀ x ∈ e.equity_curve, 0 < x) ∧
  PositionsTimed e.positions

/-- One loop iteration never raises and preserves the loop invariant. -/
lemma step_total {strategy : Strategy} {data : MarketData} {symbols : List String}
    (hdata : ∀ r ∈ data, (0 : ℚ) < r.2.2)
    (hsig : ∀ d t ps c, ∀ s ∈ strategy d t ps c, SignalOK s)
    (e : BacktestEngine) (i t : ℕ) (hinv : LoopInv e i) :
    ∃ e', e.step strategy data symbols i t = Except.ok e' ∧ LoopInv e' (i + 1) ∧
      e'.initial_capital = e.initial_capital := by
  obtain ⟨hc0, hc1, hs0, hs1, hcash, hpos, hpv, hords, hlen, hcurve, htimed⟩ := hinv
  have hpr := currentPrices_pos hdata t symbols
  obtain ⟨u1, u2⟩ := update_positions_inv (e := { e with current_time := some t })
    hpr hcash hpos
  have hpv1 : 0 < ({ e with current_time := some t } : BacktestEngine).get_portfolio_value :=
    hpv
  have hpv2 := u2 hpv1
  have hctne : (({ e with current_time := some t } : BacktestEngine).update_positions
      (currentPrices data t symbols)).current_time ≠ none := fun hx => Option.noConfusion hx
  have htimed1 : PositionsTimed ((({ e with current_time := some t } :
      BacktestEngine).update_positions (currentPrices data t symbols)).positions) :=
    positionsTimed_markPos htimed
  obtain ⟨e3, hpp, k1, k2, k3, k4, k5, k6, k7, k8, k9, k10, k11, k12, k13⟩ :=
    process_pending_total
      (e := ({ e with current_time := some t } : BacktestEngine).update_positions
        (currentPrices data t symbols))
      hpr hc0 hc1 hs0 hs1 hcash u1 hords hctne htimed1
  have hpv3 : 0 < e3.get_portfolio_value := k3 hpv2
  have q6 : e3.commission_rate = e.commission_rate := k6
  have q7 : e3.slippage_rate = e.slippage_rate := k7
  have q9 : e3.equity_curve = e.equity_curve := k9
  have q5 : e3.initial_capital = e.initial_capital := k5
  obtain ⟨m1, m2, m3, m4, m5, m6, m7, m8, m9, m10, m11, m12⟩ :=
    placeSignals_inv (strategy data t e3.positions e3.cash) e3
      (hsig data t e3.positions e3.cash)
  have hords4 : ∀ o ∈ (placeSignals e3 (strategy data t e3.positions e3.cash)).orders,
      OrderOK o := m12 k4
  have hpv4 : 0 < (placeSignals e3 (strategy data t e3.positions e3.cash)).get_portfolio_value := by
    rw [pv_eq, m1, m2]
    rw [pv_eq] at hpv3
    exact hpv3
  have hcash4 : 0 ≤ (placeSignals e3 (strategy data t e3.positions e3.cash)).cash := by
    rw [m1]
    exact k1
  have heq4 : (placeSignals e3 (strategy data t e3.positions e3.cash)).equity_curve
      = e.equity_curve := by
    rw [m8]
    exact q9
  unfold BacktestEngine.step
  dsimp only
  rw [hpp]
  dsimp only
  by_cases hi : i > 0
  · rw [if_pos hi]
    rw [heq4]
    have hi1 : i - 1 < e.equity_curve.length := by omega
    rw [List.getElem?_append_left hi1]
    rw [List.getElem?_eq_getElem hi1]
    dsimp only
    have hprev : 0 < e.equity_curve[i - 1] :=
      hcurve _ (List.getElem_mem hi1)
    rw [if_neg (ne_of_gt hprev)]
    refine ⟨_, rfl, ?_, ?_⟩
    · refine ⟨?_, ?_, ?_, ?_, ?_, ?_, ?_, ?_, ?_, ?_, ?_⟩ <;> dsimp only
      · rw [m5, q6]; exact hc0
      · rw [m5, q6]; exact hc1
      · rw [m6]; rw [(k7 : e3.slippage_rate = e.slippage_rate)]; exact hs0
      · rw [m6, q7]; exact hs1
      · exact hcash4
      · rw [m2]; exact k2
      · rw [pv_eq] at hpv4 ⊢
        exact hpv4
      · exact hords4
      · simp [hlen]
      · intro x hx
        rcases List.mem_append.mp hx with hx | hx
        · exact hcurve x hx
        · simp at hx
          subst hx
          exact hpv4
      · rw [m2]; exact k13
    · dsimp only
      rw [m4, q5]
  · rw [if_neg hi]
    have hi0 : i = 0 := by omega
    refine ⟨_, rfl, ?_, ?_⟩
    · refine ⟨?_, ?_, ?_, ?_, ?_, ?_, ?_, ?_, ?_, ?_, ?_⟩ <;> dsimp only
      · rw [m5, q6]; exact hc0
      · rw [m5, q6]; exact hc1
      · rw [m6, q7]; exact hs0
      · rw [m6, q7]; exact hs1
      · exact hcash4
      · rw [m2]; exact k2
      · rw [pv_eq] at hpv4 ⊢
        exact hpv4
      · exact hords4
      · rw [heq4]
        simp [hlen]
      · intro x hx
        rw [heq4] at hx
        rcases List.mem_append.mp hx with hx | hx
        · exact hcurve x hx
        · simp at hx
          subst hx
          exact hpv4
      · rw [m2]; exact k13
    · dsimp only
      rw [m4, q5]

/-- The whole timestamp loop never raises and preserves the invariant. -/
lemma stepsFrom_total {strategy : Strategy} {data : MarketData} {symbols : List String}
    (hdata : ∀ r ∈ data, (0 : ℚ) < r.2.2)
    (hsig : ∀ d t ps c, ∀ s ∈ strategy d t ps c, SignalOK s) :
    ∀ (ts : List ℕ) (i : ℕ) (e : BacktestEngine), LoopInv e i →
      ∃ e', stepsFrom strategy data symbols i e ts = Except.ok e' ∧
        LoopInv e' (i + ts.length) ∧ e'.initial_capital = e.initial_capital := by
  intro ts
  induction ts with
  | nil =>
      intro i e h
      exact ⟨e, rfl, by simpa using h, rfl⟩
  | cons t ts ih =>
      intro i e h
      obtain ⟨e1, hst, h1, hinit⟩ := step_total hdata hsig e i t h
      obtain ⟨e', hrec, h2, hinit2⟩ := ih (i + 1) e1 h1
      refine ⟨e', ?_, ?_, hinit2.trans hinit⟩
      · unfold stepsFrom
        rw [hst]
        exact hrec
      · have hx : (i + 1) + ts.length = i + (t :: ts).length := by
          simp
          omega
        exact hx ▸ h2

/-- The 15 keys of the results-dict contract (§6 of the spec). -/
def contractKeys : List String :=
[("initial_value"), ("final_value"), ("total_return"), ("annual_return"),
 ("annual_volatility"), ("sharpe_ratio"), ("max_drawdown"), ("total_trades"),
 ("winning_trades"), ("losing_trades"), ("win_rate"), ("avg_win"), ("avg_loss"),
 ("profit_factor"), ("total_commission")]

lemma metricsList_keys (rpow : ℚ → ℚ → ℚ) (sqrtQ : ℚ → ℚ) (sqrt252 : ℚ)
    (e : BacktestEngine) :
    (metricsList rpow sqrtQ sqrt252 e).map Prod.fst = contractKeys := rfl

/-- C3 counterexample: on an EMPTY input table `run_backtest` raises
IndexError before the loop starts (the pre-loop logging accesses
`data.index[0]`, engine.py line 341), so it does not return a results
dict for every input data table. -/
theorem c3_counterexample :
    plainEngine.run_backtest (fun b _ => b) (fun x => x) 16 (fun _ _ _ _ => []) [] [sX]
      = Except.error PyErr.indexError := rfl

/-- C3 corrected: for every NONEMPTY data table with positive close
prices, every symbol list, and every strategy returning well-formed
signal lists (positive quantities, positive and present limit / stop
prices where the type requires them), with positive initial capital and
commission / slippage rates in `[0,1)`, `run_backtest` raises nothing
under any combination of the runtime non-events — untriggered orders,
insufficient cash, missing quotes, sells without a position — and
returns a results dict bearing every contract key; on an empty table it
raises IndexError before the loop. -/
theorem c3_amended_run_total :
    ∀ (rpow : ℚ → ℚ → ℚ) (sqrtQ : ℚ → ℚ) (sqrt252 : ℚ) (e : BacktestEngine)
      (strategy : Strategy) (data : MarketData) (symbols : List String),
      0 ≤ e.commission_rate → e.commission_rate < 1 →
      0 ≤ e.slippage_rate → e.slippage_rate < 1 →
      0 < e.initial_capital →
      (∀ r ∈ data, (0 : ℚ) < r.2.2) →
      (∀ d t ps c, ∀ s ∈ strategy d t ps c, SignalOK s) →
      data ≠ [] →
      ∃ e' m, e.run_backtest rpow sqrtQ sqrt252 strategy data symbols
          = Except.ok (e', m) ∧ m.map Prod.fst = contractKeys := by
  intro rpow sqrtQ sqrt252 e strategy data symbols hc0 hc1 hs0 hs1 hic hdata hsig hne
  have hinv0 : LoopInv e.reset 0 := by
    refine ⟨hc0, hc1, hs0, hs1, le_of_lt hic, ?_, ?_, ?_, rfl, ?_, ?_⟩
    · intro x hx
      simp [BacktestEngine.reset] at hx
    · rw [pv_eq]
      show 0 < e.initial_capital + posSum []
      simpa [posSum] using hic
    · intro o ho
      simp [BacktestEngine.reset] at ho
    · intro x hx
      simp [BacktestEngine.reset] at hx
    · intro x hx
      simp [BacktestEngine.reset] at hx
  obtain ⟨e', hsteps, hinv', hinit⟩ := stepsFrom_total hdata hsig
    (uniqueKeys (data.map (fun r => r.1))) 0 e.reset hinv0
  have hic' : e'.initial_capital ≠ 0 := by
    rw [hinit]
    show e.initial_capital ≠ 0
    exact ne_of_gt hic
  refine ⟨e', metricsList rpow sqrtQ sqrt252 e', ?_, rfl⟩
  unfold BacktestEngine.run_backtest
  cases data with
  | nil => exact absurd rfl hne
  | cons r rs =>
      dsimp only
      rw [hsteps]
      dsimp only
      unfold BacktestEngine.calculate_metrics
      rw [if_neg hic']

/-- Witness for C3's corrected statement: a one-bar table with a
do-nothing strategy completes and yields all 15 keys. -/
theorem c3_witness :
    ∃ e' m, plainEngine.run_backtest (fun b _ => b) (fun x => x) 16 (fun _ _ _ _ => [])
        [(1, sX, 100)] [sX] = Except.ok (e', m) ∧ m.map Prod.fst = contractKeys :=
  c3_amended_run_total (fun b _ => b) (fun x => x) 16 plainEngine (fun _ _ _ _ => [])
    [(1, sX, 100)] [sX]
    (by norm_num [plainEngine, BacktestEngine.mk0])
    (by norm_num [plainEngine, BacktestEngine.mk0])
    (by norm_num [plainEngine, BacktestEngine.mk0])
    (by norm_num [plainEngine, BacktestEngine.mk0])
    (by norm_num [plainEngine, BacktestEngine.mk0])
    (by
      intro r hr
      simp at hr
      rw [hr]
      norm_num)
    (by
      intro d t ps c s hs
      simp at hs)
    (by simp)

/-- The rows of the table with timestamp at most `T`. -/
def sliceLE (T : ℕ) (d : MarketData) : MarketData := d.filter (fun r => r.1 ≤ T)

/-- A strategy is causal when it reads nothing after the current
timestamp: its output on the full table equals its output on the table
sliced at the current timestamp.  The bundled strategies are causal by
construction — they restrict to
`symbol_data[symbol_data.index <= timestamp]` (strategies.py line 35) —
but `run_backtest` itself passes the FULL table (engine.py line 370), so
nothing forces an arbitrary strategy callable to be causal. -/
def Causal (s : Strategy) : Prop :=
∀ d t ps c, s d t ps c = s (sliceLE t d) t ps c

lemma find?_filter_of_imp {α : Type} (p q : α → Bool) (l : List α)
    (himp : ∀ a, p a = true → q a = true) :
    (l.filter q).find? p = l.find? p := by
  induction l with
  | nil => rfl
  | cons a l ih =>
      by_cases hq : q a = true
      · rw [List.filter_cons_of_pos hq]
        by_cases hp : p a = true
        · rw [List.find?_cons_of_pos _ hp, List.find?_cons_of_pos _ hp]
        · rw [List.find?_cons_of_neg _ (by simpa using hp),
            List.find?_cons_of_neg _ (by simpa using hp)]
          exact ih
      · rw [List.filter_cons_of_neg (by simpa using hq),
          List.find?_cons_of_neg _ (by
            intro hpa
            exact hq (himp a hpa))]
        exact ih

lemma lookupClose_sliceLE {d : MarketData} {T t : ℕ} (h : t ≤ T) (sym : String) :
    lookupClose (sliceLE T d) t sym = lookupClose d t sym := by
  unfold lookupClose sliceLE
  rw [find?_filter_of_imp]
  intro r hr
  simp only [decide_eq_true_eq] at hr ⊢
  rw [hr.1]
  exact h

lemma currentPrices_congr {d1 d2 : MarketData} {T t : ℕ} (ht : t ≤ T)
    (hs : sliceLE T d1 = sliceLE T d2) (symbols : List String) :
    currentPrices d1 t symbols = currentPrices d2 t symbols := by
  unfold currentPrices
  congr 1
  funext sym
  rw [← lookupClose_sliceLE (d := d1) ht sym, hs, lookupClose_sliceLE ht sym]

lemma sliceLE_sliceLE {d : MarketData} {T t : ℕ} (h : t ≤ T) :
    sliceLE t (sliceLE T d) = sliceLE t d := by
  unfold sliceLE
  rw [List.filter_filter]
  congr 1
  funext r
  by_cases hrt : r.1 ≤ t
  · simp [hrt, le_trans hrt h]
  · simp [hrt]

/-- For a causal strategy, one loop iteration at a timestamp `t ≤ T`
depends on the data only through its `≤ T` slice. -/
lemma step_congr {strategy : Strategy} (hc : Causal strategy)
    {d1 d2 : MarketData} {T t : ℕ} (ht : t ≤ T) (hs : sliceLE T d1 = sliceLE T d2)
    (symbols : List String) (e : BacktestEngine) (i : ℕ) :
    e.step strategy d1 symbols i t = e.step strategy d2 symbols i t := by
  have hcp := currentPrices_congr ht hs symbols
  have hstr : strategy d1 t = strategy d2 t := by
    funext ps c
    rw [hc d1 t ps c, hc d2 t ps c, ← sliceLE_sliceLE (d := d1) ht, hs,
      sliceLE_sliceLE ht]
  unfold BacktestEngine.step
  rw [hcp, hstr]

/-- For a causal strategy, running any list of timestamps all at most `T`
depends on the data only through its `≤ T` slice. -/
lemma stepsFrom_congr {strategy : Strategy} (hc : Causal strategy)
    {d1 d2 : MarketData} {T : ℕ} (hs : sliceLE T d1 = sliceLE T d2)
    (symbols : List String) :
    ∀ (ts : List ℕ), (∀ t ∈ ts, t ≤ T) → ∀ (i : ℕ) (e : BacktestEngine),
      stepsFrom strategy d1 symbols i e ts = stepsFrom strategy d2 symbols i e ts := by
  intro ts
  induction ts with
  | nil =>
      intro _ i e
      rfl
  | cons t ts ih =>
      intro hts i e
      unfold stepsFrom
      rw [step_congr hc (hts t (List.mem_cons_self _ _)) hs symbols e i]
      cases hst : e.step strategy d2 symbols i t
      · rfl
      · exact ih (fun x hx => hts x (List.mem_cons_of_mem _ hx)) (i + 1) _

lemma uniqueKeysAux_sublist (l : List ℕ) :
    ∀ seen : List ℕ, List.Sublist (uniqueKeysAux seen l) l := by
  induction l with
  | nil =>
      intro seen
      simp [uniqueKeysAux]
  | cons t l ih =>
      intro seen
      unfold uniqueKeysAux
      split_ifs with h
      · exact (ih seen).cons t
      · exact (ih (t :: seen)).cons₂ t

lemma uniqueKeysAux_congr_seen :
    ∀ (l : List ℕ) (s1 s2 : List ℕ), (∀ x ∈ l, (x ∈ s1 ↔ x ∈ s2)) →
      uniqueKeysAux s1 l = uniqueKeysAux s2 l := by
  intro l
  induction l with
  | nil =>
      intro s1 s2 _
      rfl
  | cons t l ih =>
      intro s1 s2 h
      have hiff := h t (List.mem_cons_self _ _)
      unfold uniqueKeysAux
      by_cases ht : t ∈ s1
      · rw [if_pos ht, if_pos (hiff.mp ht)]
        exact ih s1 s2 (fun x hx => h x (List.mem_cons_of_mem _ hx))
      · rw [if_neg ht, if_neg (fun hc => ht (hiff.mpr hc))]
        congr 1
        apply ih
        intro x hx
        simp only [List.mem_cons]
        exact or_congr Iff.rfl (h x (List.mem_cons_of_mem _ hx))

lemma uniqueKeysAux_filter (p : ℕ → Bool) :
    ∀ (l : List ℕ) (seen : List ℕ),
      uniqueKeysAux seen (l.filter p) = (uniqueKeysAux seen l).filter p := by
  intro l
  induction l with
  | nil =>
      intro seen
      rfl
  | cons t l ih =>
      intro seen
      have aux_cons : ∀ (s : List ℕ) (ts : List ℕ) (a : ℕ),
          uniqueKeysAux s (a :: ts)
            = if a ∈ s then uniqueKeysAux s ts else a :: uniqueKeysAux (a :: s) ts :=
        fun _ _ _ => rfl
      by_cases hp : p t = true
      · rw [List.filter_cons_of_pos hp, aux_cons, aux_cons]
        by_cases ht : t ∈ seen
        · rw [if_pos ht, if_pos ht, ih seen]
        · rw [if_neg ht, if_neg ht, List.filter_cons_of_pos hp, ih (t :: seen)]
      · rw [List.filter_cons_of_neg (by simpa using hp), aux_cons]
        by_cases ht : t ∈ seen
        · rw [if_pos ht]
          exact ih seen
        · rw [if_neg ht, List.filter_cons_of_neg (by simpa using hp), ← ih (t :: seen)]
          apply (uniqueKeysAux_congr_seen (l.filter p) (t :: seen) seen ?_).symm
          intro x hx
          have hxp := List.of_mem_filter hx
          have hxt : x ≠ t := by
            intro hc
            rw [hc] at hxp
            exact hp hxp
          simp [List.mem_cons, hxt]

lemma sorted_filter_eq_takeWhile {T : ℕ} :
    ∀ (l : List ℕ), List.Sorted (· ≤ ·) l →
      l.filter (fun t => t ≤ T) = l.takeWhile (fun t => t ≤ T) := by
  intro l
  induction l with
  | nil =>
      intro _
      rfl
  | cons a l ih =>
      intro hs
      obtain ⟨ha, hl⟩ := List.sorted_cons.mp hs
      by_cases hp : a ≤ T
      · rw [List.filter_cons_of_pos (by simpa using hp),
          List.takeWhile_cons_of_pos (by simpa using hp), ih hl]
      · rw [List.filter_cons_of_neg (by simpa using hp),
          List.takeWhile_cons_of_neg (by simpa using hp)]
        apply List.filter_eq_nil_iff.mpr
        intro x hx
        simp only [decide_eq_true_eq]
        have := ha x hx
        omega

lemma map_fst_sliceLE (T : ℕ) (d : MarketData) :
    (sliceLE T d).map (fun r => r.1) = (d.map (fun r => r.1)).filter (fun t => t ≤ T) := by
  induction d with
  | nil => rfl
  | cons r d ih =>
      unfold sliceLE at *
      by_cases hp : r.1 ≤ T
      · rw [List.filter_cons_of_pos (by simpa using hp), List.map_cons, List.map_cons,
          List.filter_cons_of_pos (by simpa using hp), ih]
      · rw [List.filter_cons_of_neg (by simpa using hp), List.map_cons,
          List.filter_cons_of_neg (by simpa using hp), ih]

lemma uniqueKeys_sorted {l : List ℕ} (h : List.Sorted (· ≤ ·) l) :
    List.Sorted (· ≤ ·) (uniqueKeys l) :=
  List.Pairwise.sublist (uniqueKeysAux_sublist l []) h

/-- Splitting the timestamp loop at any point. -/
lemma stepsFrom_append {strategy : Strategy} {data : MarketData} {symbols : List String} :
    ∀ (ts1 ts2 : List ℕ) (i : ℕ) (e : BacktestEngine),
      stepsFrom strategy data symbols i e (ts1 ++ ts2)
        = match stepsFrom strategy data symbols i e ts1 with
          | Except.error err => Except.error err
          | Except.ok e1 => stepsFrom strategy data symbols (i + ts1.length) e1 ts2 := by
  intro ts1
  induction ts1 with
  | nil =>
      intro ts2 i e
      simp [stepsFrom]
  | cons t ts1 ih =>
      intro ts2 i e
      rw [List.cons_append]
      have hcons : ∀ (i : ℕ) (e : BacktestEngine) (ts : List ℕ),
          stepsFrom strategy data symbols i e (t :: ts)
            = match e.step strategy data symbols i t with
              | Except.error err => Except.error err
              | Except.ok e1 => stepsFrom strategy data symbols (i + 1) e1 ts :=
        fun _ _ _ => rfl
      rw [hcons, hcons]
      cases hst : e.step strategy data symbols i t
      · rfl
      · rename_i e1
        dsimp only
        rw [ih]
        have hx : i + 1 + ts1.length = i + (t :: ts1).length := by
          simp
          omega
        rw [hx]

/-- A strategy that peeks at the whole table (sums every close, including
rows after the current timestamp). -/
def peekStrategy : Strategy := fun d _ _ _ =>
  if 300 < (d.map (fun r => r.2.2)).sum then
    [{ symbol := sX
       side := OrderSide.buy
       quantity := 1
       order_type := OrderType.market
       price := none
       stop_price := none }]
  else []

/-- Two-bar table, quiet future. -/
def dA : MarketData := [(1, sX, 100), (2, sX, 100)]

/-- Two-bar table agreeing with `dA` on every row with timestamp ≤ 1 but
differing strictly after. -/
def dB : MarketData := [(1, sX, 100), (2, sX, 999)]

/-- C4 counterexample: `run_backtest` passes the FULL data table to the
strategy (engine.py line 370), so a strategy reading past the current
timestamp breaks the claimed hyperproperty: `dA` and `dB` agree on every
row with timestamp ≤ 1, yet the signal produced at the step of timestamp
1 differs and the engine state after processing that step differs (one
order placed versus none). -/
theorem c4_counterexample :
    sliceLE 1 dA = sliceLE 1 dB ∧
    peekStrategy dA 1 [] plainEngine.reset.cash
      ≠ peekStrategy dB 1 [] plainEngine.reset.cash ∧
    Except.map (fun e => e.orders.length)
        (stepsFrom peekStrategy dA [sX] 0 plainEngine.reset [1]) = Except.ok 0 ∧
    Except.map (fun e => e.orders.length)
        (stepsFrom peekStrategy dB [sX] 0 plainEngine.reset [1]) = Except.ok 1 ∧
    (0 : ℕ) ≠ 1 := by
  refine ⟨by with_unfolding_all rfl, by with_unfolding_all decide,
    by with_unfolding_all rfl, by with_unfolding_all rfl, by decide⟩

/-- C4 corrected: the engine itself does not enforce no-lookahead — it
hands the full table to the strategy — but for every CAUSAL strategy
(one whose output depends only on rows with timestamp ≤ the current
timestamp, as all the bundled strategies do by slicing
`symbol_data.index <= timestamp`) the guarantee holds: on sorted data,
two tables agreeing on all rows with timestamp ≤ T produce the same
processed-timestamp prefix up to T and identical engine states (orders,
positions, cash, trades, curves) after running that prefix; the full
run is the prefix run followed by the post-T timestamps. -/
theorem c4_amended_no_lookahead :
    ∀ (strategy : Strategy) (symbols : List String) (e : BacktestEngine)
      (d1 d2 : MarketData) (T : ℕ),
      Causal strategy →
      List.Sorted (· ≤ ·) (d1.map (fun r => r.1)) →
      List.Sorted (· ≤ ·) (d2.map (fun r => r.1)) →
      sliceLE T d1 = sliceLE T d2 →
      ((uniqueKeys (d1.map (fun r => r.1))).takeWhile (fun t => t ≤ T)
          = (uniqueKeys (d2.map (fun r => r.1))).takeWhile (fun t => t ≤ T)) ∧
      (stepsFrom strategy d1 symbols 0 e.reset
          ((uniqueKeys (d1.map (fun r => r.1))).takeWhile (fun t => t ≤ T))
        = stepsFrom strategy d2 symbols 0 e.reset
          ((uniqueKeys (d2.map (fun r => r.1))).takeWhile (fun t => t ≤ T))) ∧
      (stepsFrom strategy d1 symbols 0 e.reset (uniqueKeys (d1.map (fun r => r.1)))
        = match stepsFrom strategy d1 symbols 0 e.reset
            ((uniqueKeys (d1.map (fun r => r.1))).takeWhile (fun t => t ≤ T)) with
          | Except.error err => Except.error err
          | Except.ok e1 => stepsFrom strategy d1 symbols
              (0 + ((uniqueKeys (d1.map (fun r => r.1))).takeWhile (fun t => t ≤ T)).length)
              e1
              ((uniqueKeys (d1.map (fun r => r.1))).dropWhile (fun t => t ≤ T))) := by
  intro strategy symbols e d1 d2 T hc h1 h2 hs
  have key : ∀ d : MarketData, List.Sorted (· ≤ ·) (d.map (fun r => r.1)) →
      (uniqueKeys (d.map (fun r => r.1))).takeWhile (fun t => t ≤ T)
        = uniqueKeys ((sliceLE T d).map (fun r => r.1)) := by
    intro d hd
    rw [← sorted_filter_eq_takeWhile _ (uniqueKeys_sorted hd), map_fst_sliceLE]
    unfold uniqueKeys
    rw [uniqueKeysAux_filter]
  have hA : (uniqueKeys (d1.map (fun r => r.1))).takeWhile (fun t => t ≤ T)
      = (uniqueKeys (d2.map (fun r => r.1))).takeWhile (fun t => t ≤ T) := by
    rw [key d1 h1, key d2 h2, hs]
  refine ⟨hA, ?_, ?_⟩
  · rw [hA]
    apply stepsFrom_congr hc hs
    intro t ht
    have := List.mem_takeWhile_imp ht
    simpa using this
  · have hsplit : uniqueKeys (d1.map (fun r => r.1))
        = (uniqueKeys (d1.map (fun r => r.1))).takeWhile (fun t => t ≤ T)
          ++ (uniqueKeys (d1.map (fun r => r.1))).dropWhile (fun t => t ≤ T) :=
      (List.takeWhile_append_dropWhile _ _).symm
    conv_lhs => rw [hsplit]
    rw [stepsFrom_append]

/-- Witness for C4's corrected statement: the do-nothing strategy is
causal, and two sorted tables agreeing up to timestamp 1 give identical
prefix runs. -/
theorem c4_witness :
    ((uniqueKeys (dA.map (fun r => r.1))).takeWhile (fun t => t ≤ 1)
        = (uniqueKeys ([(1, sX, 100), (2, sX, 500)].map
            (fun (r : ℕ × String × ℚ) => r.1))).takeWhile (fun t => t ≤ 1)) ∧
    (stepsFrom (fun _ _ _ _ => []) dA [sX] 0 plainEngine.reset
        ((uniqueKeys (dA.map (fun r => r.1))).takeWhile (fun t => t ≤ 1))
      = stepsFrom (fun _ _ _ _ => []) [(1, sX, 100), (2, sX, 500)] [sX] 0 plainEngine.reset
        ((uniqueKeys ([(1, sX, 100), (2, sX, 500)].map
            (fun (r : ℕ × String × ℚ) => r.1))).takeWhile (fun t => t ≤ 1))) ∧
    (stepsFrom (fun _ _ _ _ => []) dA [sX] 0 plainEngine.reset
        (uniqueKeys (dA.map (fun r => r.1)))
      = match stepsFrom (fun _ _ _ _ => []) dA [sX] 0 plainEngine.reset
          ((uniqueKeys (dA.map (fun r => r.1))).takeWhile (fun t => t ≤ 1)) with
        | Except.error err => Except.error err
        | Except.ok e1 => stepsFrom (fun _ _ _ _ => []) dA [sX]
            (0 + ((uniqueKeys (dA.map (fun r => r.1))).takeWhile
              (fun t => t ≤ 1)).length) e1
            ((uniqueKeys (dA.map (fun r => r.1))).dropWhile (fun t => t ≤ 1))) :=
  c4_amended_no_lookahead (fun _ _ _ _ => []) [sX] plainEngine dA
    [(1, sX, 100), (2, sX, 500)] 1
    (fun _ _ _ _ => rfl)
    (by with_unfolding_all decide)
    (by with_unfolding_all decide)
    (by with_unfolding_all rfl)
